import Mathlib

/-!
Verification of the graph-traversal program (src/graph_traversal.rs).

The program defines an immutable `Graph` (a vector of `Node`s, each holding an
`i32` value and a list of neighbor indices) and three lazy iterators over it:

* `BfsIterator`  — FIFO queue frontier, visited marked at pop time;
* `DfsIterator`  — LIFO stack frontier, neighbors pushed in reverse order,
  visited marked at pop time;
* `NextSmallestIterator` — min-heap on `(value, index)` pairs, visited marked
  at push (discovery) time.

Machine integers (`i32` values, `usize` indices) are modelled as `Int` and
`Nat`; the graphs involved never approach overflow, and the Rust code performs
no arithmetic on them.  `HashSet<usize>` is modelled as `Finset Nat`,
`VecDeque`/`Vec` frontiers as `List Nat` (head = front of queue / top of
stack), and `BinaryHeap<Reverse<(i32, usize)>>` as a `List (Int × Nat)` from
which `pop` removes the lexicographically smallest pair.  A panic from
out-of-bounds indexing (`self.graph.nodes[i]`) is modelled as an explicit
`oob` outcome.
-/

/-- A graph node: an `i32` value and the list of neighbor indices
(`struct Node { value: i32, neighbors: Vec<usize> }`). -/
structure Node where
  value : Int
  neighbors : List Nat
deriving DecidableEq

/-- The graph: an indexed vector of nodes (`struct Graph { nodes: Vec<Node> }`). -/
structure Graph where
  nodes : List Node
deriving DecidableEq

/-- The concrete demonstration graph built in `main`. -/
def demoGraph : Graph :=
  ⟨[⟨0, [1, 2]⟩, ⟨1, [0, 5, 4]⟩, ⟨2, [0, 3]⟩, ⟨3, [1]⟩, ⟨4, [1, 2]⟩, ⟨5, [1, 2]⟩]⟩

/-- Neighbor list of the node at index `a` (empty when `a` is out of range). -/
def nbrs (g : Graph) (a : Nat) : List Nat :=
  (g.nodes[a]?.map Node.neighbors).getD []

/-- The edge relation of the graph: `b` appears in the neighbor list of `a`. -/
def edge (g : Graph) (a b : Nat) : Prop :=
  b ∈ nbrs g a

instance (g : Graph) (a b : Nat) : Decidable (edge g a b) := by
  unfold edge; infer_instance

/-- Reachability: zero or more edge steps from `s`. -/
def ReachableG (g : Graph) (s v : Nat) : Prop :=
  Relation.ReflTransGen (edge g) s v

/-- The set of nodes reachable from `s` by a path of length exactly `n`. -/
def reachSet (g : Graph) (s : Nat) : Nat → Finset Nat
  | 0 => {s}
  | n + 1 => (reachSet g s n).biUnion (fun u => (nbrs g u).toFinset)

/-- Well-formed graph: every neighbor index is in range. -/
def WF (g : Graph) : Prop :=
  ∀ n ∈ g.nodes, ∀ j ∈ n.neighbors, j < g.nodes.length

instance (g : Graph) : Decidable (WF g) := by
  unfold WF; infer_instance

/-- Outcome of one `next()` call: a yielded node index, exhaustion (`None`),
or a panic from out-of-bounds indexing. -/
inductive NRes where
  | yield (i : Nat)
  | done
  | oob
deriving DecidableEq

/-- How a full traversal run ended. -/
inductive RunEnd where
  | finished
  | oobEnd
  | fuelOut
deriving DecidableEq

/-! ## BFS iterator -/

/-- State of `BfsIterator`: the FIFO queue (head = front) and the visited set. -/
structure BfsState where
  queue : List Nat
  visited : Finset Nat
deriving DecidableEq

/-- `BfsIterator::new`: queue seeded with `start`, empty visited set. -/
def bfsNew (_g : Graph) (start : Nat) : BfsState :=
  ⟨[start], ∅⟩

/-- The `while let Some(i) = queue.pop_front()` loop of `BfsIterator::next`:
skip already-visited indices, otherwise mark visited, look the node up
(out-of-range index panics), enqueue its not-yet-visited neighbors at the
back, and yield. -/
def bfsNextAux (g : Graph) : List Nat → Finset Nat → NRes × BfsState
  | [], vis => (.done, ⟨[], vis⟩)
  | i :: q, vis =>
    if i ∈ vis then
      bfsNextAux g q vis
    else
      let vis' := insert i vis
      match g.nodes[i]? with
      | none => (.oob, ⟨q, vis'⟩)
      | some node =>
        (.yield i, ⟨q ++ node.neighbors.filter (fun j => decide (j ∉ vis')), vis'⟩)

/-- `BfsIterator::next`. -/
def bfsNext (g : Graph) (st : BfsState) : NRes × BfsState :=
  bfsNextAux g st.queue st.visited

/-- Drive the BFS iterator for at most `fuel` calls to `next`, collecting the
yielded indices, how the run ended, and the final state. -/
def bfsRun (g : Graph) : Nat → BfsState → List Nat × RunEnd × BfsState
  | 0, st => ([], .fuelOut, st)
  | fuel + 1, st =>
    match bfsNext g st with
    | (.yield i, st') =>
      let r := bfsRun g fuel st'
      (i :: r.1, r.2)
    | (.done, st') => ([], .finished, st')
    | (.oob, st') => ([], .oobEnd, st')

/-! ## DFS iterator -/

/-- State of `DfsIterator`: the stack (head = top) and the visited set. -/
structure DfsState where
  stack : List Nat
  visited : Finset Nat
deriving DecidableEq

/-- `DfsIterator::new`: stack seeded with `start`, empty visited set. -/
def dfsNew (_g : Graph) (start : Nat) : DfsState :=
  ⟨[start], ∅⟩

/-- The loop of `DfsIterator::next`.  The Rust code pushes the not-yet-visited
neighbors in reverse list order, so after the pushes the first unvisited
neighbor sits on top: with the stack modelled head-as-top the new stack is the
filtered neighbor list prepended to the remaining stack. -/
def dfsNextAux (g : Graph) : List Nat → Finset Nat → NRes × DfsState
  | [], vis => (.done, ⟨[], vis⟩)
  | i :: q, vis =>
    if i ∈ vis then
      dfsNextAux g q vis
    else
      let vis' := insert i vis
      match g.nodes[i]? with
      | none => (.oob, ⟨q, vis'⟩)
      | some node =>
        (.yield i, ⟨node.neighbors.filter (fun j => decide (j ∉ vis')) ++ q, vis'⟩)

/-- `DfsIterator::next`. -/
def dfsNext (g : Graph) (st : DfsState) : NRes × DfsState :=
  dfsNextAux g st.stack st.visited

/-- Drive the DFS iterator for at most `fuel` calls to `next`. -/
def dfsRun (g : Graph) : Nat → DfsState → List Nat × RunEnd × DfsState
  | 0, st => ([], .fuelOut, st)
  | fuel + 1, st =>
    match dfsNext g st with
    | (.yield i, st') =>
      let r := dfsRun g fuel st'
      (i :: r.1, r.2)
    | (.done, st') => ([], .finished, st')
    | (.oob, st') => ([], .oobEnd, st')

/-! ## NextSmallest iterator

`BinaryHeap<Reverse<(i32, usize)>>::pop` returns the lexicographically
smallest `(value, index)` pair.  The heap is modelled as a plain list of
pairs; `heapPop` extracts (one occurrence of) the lexicographic minimum. -/

/-- Lexicographic order on `(value, index)` pairs, as `Ord` on Rust tuples. -/
def pairLe (p q : Int × Nat) : Prop :=
  p.1 < q.1 ∨ (p.1 = q.1 ∧ p.2 ≤ q.2)

instance (p q : Int × Nat) : Decidable (pairLe p q) := by
  unfold pairLe; infer_instance

/-- Fold computing the lexicographic minimum of `p` and the elements of `l`. -/
def heapMin (p : Int × Nat) (l : List (Int × Nat)) : Int × Nat :=
  l.foldl (fun a b => if pairLe a b then a else b) p

/-- Pop the minimum `(value, index)` pair, returning it and the rest. -/
def heapPop : List (Int × Nat) → Option ((Int × Nat) × List (Int × Nat))
  | [] => none
  | p :: rest =>
    let m := heapMin p rest
    some (m, (p :: rest).erase m)

/-- State of `NextSmallestIterator`: the heap contents and the visited set. -/
structure NsState where
  heap : List (Int × Nat)
  visited : Finset Nat
deriving DecidableEq

/-- `NextSmallestIterator::new`: if `start` is in range, push
`(value, start)` and mark `start` visited immediately; otherwise start empty. -/
def nsNew (g : Graph) (start : Nat) : NsState :=
  match g.nodes[start]? with
  | some n => ⟨[(n.value, start)], {start}⟩
  | none => ⟨[], ∅⟩

/-- The neighbor-expansion loop of `NextSmallestIterator::next`: every
not-yet-visited neighbor is marked visited and pushed (value first looked up;
an out-of-range neighbor index panics, modelled as `none`). -/
def nsExpand (g : Graph) :
    List Nat → List (Int × Nat) → Finset Nat → Option (List (Int × Nat) × Finset Nat)
  | [], h, v => some (h, v)
  | j :: ns, h, v =>
    if j ∈ v then
      nsExpand g ns h v
    else
      match g.nodes[j]? with
      | none => none
      | some nj => nsExpand g ns (h ++ [(nj.value, j)]) (insert j v)

/-- `NextSmallestIterator::next`: pop the minimum pair (exhausted when the
heap is empty), look the node up, push all unvisited neighbors, and yield.
No visited check is performed on the popped element. -/
def nsNext (g : Graph) (st : NsState) : NRes × NsState :=
  match heapPop st.heap with
  | none => (.done, ⟨[], st.visited⟩)
  | some ((_, i), rest) =>
    match g.nodes[i]? with
    | none => (.oob, ⟨rest, st.visited⟩)
    | some node =>
      match nsExpand g node.neighbors rest st.visited with
      | none => (.oob, ⟨rest, st.visited⟩)
      | some (h', v') => (.yield i, ⟨h', v'⟩)

/-- Drive the NextSmallest iterator for at most `fuel` calls to `next`. -/
def nsRun (g : Graph) : Nat → NsState → List Nat × RunEnd × NsState
  | 0, st => ([], .fuelOut, st)
  | fuel + 1, st =>
    match nsNext g st with
    | (.yield i, st') =>
      let r := nsRun g fuel st'
      (i :: r.1, r.2)
    | (.done, st') => ([], .finished, st')
    | (.oob, st') => ([], .oobEnd, st')

/-- The values printed for a list of yielded indices (`node.value`). -/
def yieldValues (g : Graph) (ys : List Nat) : List Int :=
  ys.filterMap (fun i => g.nodes[i]?.map Node.value)

/-! ## Basic step lemmas -/

/-- If a BFS `next` call reports exhaustion, the queue has been fully drained. -/
lemma bfsNextAux_done_state (g : Graph) :
    ∀ q vis, (bfsNextAux g q vis).1 = .done →
      (bfsNextAux g q vis).2.queue = [] := by
  intro q
  induction q with
  | nil => intro vis _; simp [bfsNextAux]
  | cons i q ih =>
    intro vis h
    by_cases hi : i ∈ vis
    · simpa [bfsNextAux, hi] using ih _ (by simpa [bfsNextAux, hi] using h)
    · rw [bfsNextAux] at h ⊢
      simp only [hi, if_false] at h ⊢
      cases hg : g.nodes[i]? <;> simp [hg] at h

/-- If a DFS `next` call reports exhaustion, the stack has been fully drained. -/
lemma dfsNextAux_done_state (g : Graph) :
    ∀ q vis, (dfsNextAux g q vis).1 = .done →
      (dfsNextAux g q vis).2.stack = [] := by
  intro q
  induction q with
  | nil => intro vis _; simp [dfsNextAux]
  | cons i q ih =>
    intro vis h
    by_cases hi : i ∈ vis
    · simpa [dfsNextAux, hi] using ih _ (by simpa [dfsNextAux, hi] using h)
    · rw [dfsNextAux] at h ⊢
      simp only [hi, if_false] at h ⊢
      cases hg : g.nodes[i]? <;> simp [hg] at h

/-- If a NextSmallest `next` call reports exhaustion, the heap was empty and
the state is unchanged apart from the (empty) heap. -/
lemma nsNext_done_state (g : Graph) (st : NsState) (h : (nsNext g st).1 = .done) :
    (nsNext g st).2 = ⟨[], st.visited⟩ := by
  unfold nsNext at h ⊢
  cases hp : heapPop st.heap with
  | none => simp [hp]
  | some pr =>
    obtain ⟨⟨v, i⟩, rest⟩ := pr
    rw [hp] at h
    exfalso
    cases hg : g.nodes[i]? with
    | none => simp [hg] at h
    | some node =>
      cases he : nsExpand g node.neighbors rest st.visited with
      | none => simp [hg, he] at h
      | some pr2 => simp [hg, he] at h

/-! ## Claim theorems: concrete scenario and invalid-start behavior -/

/-- C2 (counterexample): the spec's expected sequences for the demonstration
graph do not all hold — the DFS iterator does not yield values 0,1,5,4,2,3. -/
theorem demo_sequences_counterexample :
    ¬ (yieldValues demoGraph (bfsRun demoGraph 7 (bfsNew demoGraph 0)).1 = [0, 1, 2, 5, 4, 3] ∧
       yieldValues demoGraph (dfsRun demoGraph 7 (dfsNew demoGraph 0)).1 = [0, 1, 5, 4, 2, 3] ∧
       yieldValues demoGraph (nsRun demoGraph 7 (nsNew demoGraph 0)).1 = [0, 1, 2, 3, 4, 5]) := by
  decide

/-- C2 (amended): on the demonstration graph with start 0, BFS yields values
0,1,2,5,4,3, DFS yields values 0,1,5,2,3,4, and the priority traversal yields
values 0,1,2,3,4,5; all three runs finish. -/
theorem demo_sequences :
    yieldValues demoGraph (bfsRun demoGraph 7 (bfsNew demoGraph 0)).1 = [0, 1, 2, 5, 4, 3] ∧
    yieldValues demoGraph (dfsRun demoGraph 7 (dfsNew demoGraph 0)).1 = [0, 1, 5, 2, 3, 4] ∧
    yieldValues demoGraph (nsRun demoGraph 7 (nsNew demoGraph 0)).1 = [0, 1, 2, 3, 4, 5] ∧
    (bfsRun demoGraph 7 (bfsNew demoGraph 0)).2.1 = .finished ∧
    (dfsRun demoGraph 7 (dfsNew demoGraph 0)).2.1 = .finished ∧
    (nsRun demoGraph 7 (nsNew demoGraph 0)).2.1 = .finished := by
  decide

/-- C3: for a start position at or beyond the node count, BFS and DFS
construction succeeds (no range check is performed), and the very first call
to `next` hits the out-of-bounds indexing branch instead of reporting
exhaustion. -/
theorem bfs_dfs_invalid_start_oob (g : Graph) (s : Nat) (h : g.nodes.length ≤ s) :
    bfsNew g s = ⟨[s], ∅⟩ ∧ (bfsNext g (bfsNew g s)).1 = .oob ∧
    dfsNew g s = ⟨[s], ∅⟩ ∧ (dfsNext g (dfsNew g s)).1 = .oob := by
  have hg : g.nodes[s]? = none := by
    rw [List.getElem?_eq_none_iff]
    exact h
  refine ⟨rfl, ?_, rfl, ?_⟩ <;>
    simp [bfsNew, dfsNew, bfsNext, dfsNext, bfsNextAux, dfsNextAux, hg]

/-- Closed witness for the invalid-start theorem at the demonstration graph. -/
theorem bfs_dfs_invalid_start_oob_witness :
    demoGraph.nodes.length ≤ 6 ∧
    (bfsNew demoGraph 6 = ⟨[6], ∅⟩ ∧ (bfsNext demoGraph (bfsNew demoGraph 6)).1 = .oob ∧
     dfsNew demoGraph 6 = ⟨[6], ∅⟩ ∧ (dfsNext demoGraph (dfsNew demoGraph 6)).1 = .oob) :=
  ⟨by decide, bfs_dfs_invalid_start_oob demoGraph 6 (by decide)⟩

/-- C7: for a start position at or beyond the node count, the NextSmallest
iterator is constructed with an empty heap and empty visited set, and its
first `next` call reports exhaustion, leaving the state unchanged (so every
later call is also exhausted); no out-of-bounds failure occurs. -/
theorem ns_invalid_start_empty (g : Graph) (s : Nat) (h : g.nodes.length ≤ s) :
    nsNew g s = ⟨[], ∅⟩ ∧ nsNext g (nsNew g s) = (.done, ⟨[], ∅⟩) := by
  have hg : g.nodes[s]? = none := by
    rw [List.getElem?_eq_none_iff]
    exact h
  have h1 : nsNew g s = ⟨[], ∅⟩ := by simp [nsNew, hg]
  exact ⟨h1, by rw [h1]; rfl⟩

/-- Closed witness for the NextSmallest invalid-start theorem. -/
theorem ns_invalid_start_empty_witness :
    demoGraph.nodes.length ≤ 6 ∧
    (nsNew demoGraph 6 = ⟨[], ∅⟩ ∧ nsNext demoGraph (nsNew demoGraph 6) = (.done, ⟨[], ∅⟩)) :=
  ⟨by decide, ns_invalid_start_empty demoGraph 6 (by decide)⟩

/-- C8: exhaustion is permanent for all three iterators: whenever a `next`
call reports exhaustion, the following `next` call on the resulting state
reports exhaustion as well. -/
theorem exhaustion_permanent (g : Graph) :
    (∀ st : BfsState, (bfsNext g st).1 = .done → (bfsNext g (bfsNext g st).2).1 = .done) ∧
    (∀ st : DfsState, (dfsNext g st).1 = .done → (dfsNext g (dfsNext g st).2).1 = .done) ∧
    (∀ st : NsState, (nsNext g st).1 = .done → (nsNext g (nsNext g st).2).1 = .done) := by
  refine ⟨fun st h => ?_, fun st h => ?_, fun st h => ?_⟩
  · have hq : (bfsNext g st).2.queue = [] := bfsNextAux_done_state g st.queue st.visited h
    rw [bfsNext, hq, bfsNextAux]
  · have hq : (dfsNext g st).2.stack = [] := dfsNextAux_done_state g st.stack st.visited h
    rw [dfsNext, hq, dfsNextAux]
  · rw [nsNext_done_state g st h, nsNext]
    rfl

/-- Closed witness for exhaustion permanence, at an exhausted BFS state, an
exhausted DFS state, and an exhausted NextSmallest state of the demo graph. -/
theorem exhaustion_permanent_witness :
    ((bfsNext demoGraph ⟨[], {0}⟩).1 = .done ∧
     (bfsNext demoGraph (bfsNext demoGraph ⟨[], {0}⟩).2).1 = .done) ∧
    ((dfsNext demoGraph ⟨[], {0}⟩).1 = .done ∧
     (dfsNext demoGraph (dfsNext demoGraph ⟨[], {0}⟩).2).1 = .done) ∧
    ((nsNext demoGraph ⟨[], {0}⟩).1 = .done ∧
     (nsNext demoGraph (nsNext demoGraph ⟨[], {0}⟩).2).1 = .done) :=
  ⟨⟨by decide, (exhaustion_permanent demoGraph).1 ⟨[], {0}⟩ (by decide)⟩,
   ⟨by decide, (exhaustion_permanent demoGraph).2.1 ⟨[], {0}⟩ (by decide)⟩,
   ⟨by decide, (exhaustion_permanent demoGraph).2.2 ⟨[], {0}⟩ (by decide)⟩⟩

/-! ## Heap lemmas -/

lemma pairLe_refl (p : Int × Nat) : pairLe p p := by
  unfold pairLe; omega

lemma pairLe_trans {p q r : Int × Nat} (h1 : pairLe p q) (h2 : pairLe q r) : pairLe p r := by
  unfold pairLe at *; omega

lemma pairLe_total (p q : Int × Nat) : pairLe p q ∨ pairLe q p := by
  unfold pairLe; omega

/-- The fold minimum is one of the candidates. -/
lemma heapMin_mem : ∀ (l : List (Int × Nat)) (p : Int × Nat), heapMin p l ∈ p :: l := by
  intro l
  induction l with
  | nil => intro p; simp [heapMin]
  | cons b l ih =>
    intro p
    by_cases h : pairLe p b
    · have := ih p
      rw [heapMin] at this ⊢
      simp only [List.foldl_cons, if_pos h]
      rcases List.mem_cons.1 this with h' | h'
      · exact List.mem_cons.2 (Or.inl h')
      · exact List.mem_cons.2 (Or.inr (List.mem_cons.2 (Or.inr h')))
    · have := ih b
      rw [heapMin] at this ⊢
      simp only [List.foldl_cons, if_neg h]
      rcases List.mem_cons.1 this with h' | h'
      · exact List.mem_cons.2 (Or.inr (List.mem_cons.2 (Or.inl h')))
      · exact List.mem_cons.2 (Or.inr (List.mem_cons.2 (Or.inr h')))

/-- The fold minimum is below every candidate. -/
lemma heapMin_le : ∀ (l : List (Int × Nat)) (p q : Int × Nat),
    q ∈ p :: l → pairLe (heapMin p l) q := by
  intro l
  induction l with
  | nil =>
    intro p q hq
    rcases List.mem_cons.1 hq with h | h
    · subst h; exact pairLe_refl _
    · simp at h
  | cons b l ih =>
    intro p q hq
    have hstep : heapMin p (b :: l) = heapMin (if pairLe p b then p else b) l := by
      rw [heapMin, heapMin, List.foldl_cons]
    by_cases hpb : pairLe p b
    · rw [hstep, if_pos hpb]
      rcases List.mem_cons.1 hq with h | h
      · rw [h]; exact ih p p (List.mem_cons.2 (Or.inl rfl))
      · rcases List.mem_cons.1 h with h' | h'
        · rw [h']
          exact pairLe_trans (ih p p (List.mem_cons.2 (Or.inl rfl))) hpb
        · exact ih p q (List.mem_cons.2 (Or.inr h'))
    · have hbp : pairLe b p := (pairLe_total p b).resolve_left hpb
      rw [hstep, if_neg hpb]
      rcases List.mem_cons.1 hq with h | h
      · rw [h]
        exact pairLe_trans (ih b b (List.mem_cons.2 (Or.inl rfl))) hbp
      · rcases List.mem_cons.1 h with h' | h'
        · rw [h']; exact ih b b (List.mem_cons.2 (Or.inl rfl))
        · exact ih b q (List.mem_cons.2 (Or.inr h'))

/-- A list is a permutation of a member together with the result of erasing it. -/
lemma perm_cons_erase_pair : ∀ {l : List (Int × Nat)} {a : Int × Nat}, a ∈ l →
    l.Perm (a :: l.erase a) := by
  intro l
  induction l with
  | nil => intro a h; simp at h
  | cons b l ih =>
    intro a h
    by_cases hb : b = a
    · subst hb; simp [List.erase_cons_head]
    · have hmem : a ∈ l := by
        rcases List.mem_cons.1 h with h1 | h1
        · exact absurd h1.symm hb
        · exact h1
      have he : (b :: l).erase a = b :: l.erase a := by
        rw [List.erase_cons]
        simp [hb]
      rw [he]
      exact ((ih hmem).cons b).trans (List.Perm.swap a b (l.erase a))

/-- Characterization of a successful heap pop: the element is a member, it is
the lexicographic minimum, and the heap is a permutation of it with the rest. -/
lemma heapPop_spec {h : List (Int × Nat)} {m : Int × Nat} {r : List (Int × Nat)}
    (hp : heapPop h = some (m, r)) :
    m ∈ h ∧ (∀ q ∈ h, pairLe m q) ∧ r = h.erase m ∧ h.Perm (m :: r) := by
  cases h with
  | nil => simp [heapPop] at hp
  | cons p rest =>
    rw [heapPop] at hp
    simp only [Option.some.injEq, Prod.mk.injEq] at hp
    obtain ⟨hm, hr⟩ := hp
    subst hm
    subst hr
    exact ⟨heapMin_mem rest p, fun q hq => heapMin_le rest p q hq, rfl,
      perm_cons_erase_pair (heapMin_mem rest p)⟩

/-- The heap pop is `none` exactly on the empty heap. -/
lemma heapPop_eq_none {h : List (Int × Nat)} (hp : heapPop h = none) : h = [] := by
  cases h with
  | nil => rfl
  | cons p rest => rw [heapPop] at hp; simp at hp

/-! ## nsExpand lemmas -/

/-- Characterization of a successful neighbor expansion in the NextSmallest
iterator: the pushed pairs `L` extend the heap on the right, their indices are
fresh unvisited neighbors marked visited as they are pushed (hence pairwise
distinct), after the expansion every neighbor is visited, and each pushed pair
carries the looked-up node value. -/
lemma nsExpand_spec (g : Graph) :
    ∀ (ns : List Nat) (h : List (Int × Nat)) (v : Finset Nat)
      (h' : List (Int × Nat)) (v' : Finset Nat),
      nsExpand g ns h v = some (h', v') →
      ∃ L : List (Int × Nat),
        h' = h ++ L ∧
        v' = v ∪ (L.map Prod.snd).toFinset ∧
        (L.map Prod.snd).Nodup ∧
        (∀ p ∈ L, p.2 ∈ ns ∧ p.2 ∉ v) ∧
        (∀ j ∈ ns, j ∈ v') ∧
        (∀ p ∈ L, ∃ nd, g.nodes[p.2]? = some nd ∧ nd.value = p.1) := by
  intro ns
  induction ns with
  | nil =>
    intro h v h' v' he
    rw [nsExpand] at he
    simp only [Option.some.injEq, Prod.mk.injEq] at he
    obtain ⟨hh, hv⟩ := he
    exact ⟨[], by simp [← hh, ← hv]⟩
  | cons j ns ih =>
    intro h v h' v' he
    rw [nsExpand] at he
    by_cases hj : j ∈ v
    · rw [if_pos hj] at he
      obtain ⟨L, hL1, hL2, hL3, hL4, hL5, hL6⟩ := ih h v h' v' he
      refine ⟨L, hL1, hL2, hL3, ?_, ?_, hL6⟩
      · exact fun p hp => ⟨List.mem_cons.2 (Or.inr (hL4 p hp).1), (hL4 p hp).2⟩
      · intro j' hj'
        rcases List.mem_cons.1 hj' with h1 | h1
        · rw [h1, hL2]
          exact Finset.mem_union_left _ hj
        · exact hL5 j' h1
    · rw [if_neg hj] at he
      cases hg : g.nodes[j]? with
      | none => rw [hg] at he; simp at he
      | some nj =>
        rw [hg] at he
        obtain ⟨L, hL1, hL2, hL3, hL4, hL5, hL6⟩ := ih (h ++ [(nj.value, j)]) (insert j v) h' v' he
        refine ⟨(nj.value, j) :: L, ?_, ?_, ?_, ?_, ?_, ?_⟩
        · rw [hL1, List.append_assoc]
          rfl
        · rw [hL2]
          ext x
          simp [Finset.mem_union, Finset.mem_insert, List.mem_toFinset]
        · refine List.nodup_cons.2 ⟨?_, hL3⟩
          intro hmem
          simp only [List.mem_map] at hmem
          obtain ⟨p, hp, hps⟩ := hmem
          have := (hL4 p hp).2
          rw [hps] at this
          exact this (Finset.mem_insert_self j v)
        · intro p hp
          rcases List.mem_cons.1 hp with h1 | h1
          · rw [h1]
            exact ⟨List.mem_cons.2 (Or.inl rfl), hj⟩
          · refine ⟨List.mem_cons.2 (Or.inr (hL4 p h1).1), ?_⟩
            intro hpv
            exact (hL4 p h1).2 (Finset.mem_insert_of_mem hpv)
        · intro j' hj'
          rcases List.mem_cons.1 hj' with h1 | h1
          · rw [h1, hL2]
            exact Finset.mem_union_left _ (Finset.mem_insert_self j v)
          · exact hL5 j' h1
        · intro p hp
          rcases List.mem_cons.1 hp with h1 | h1
          · rw [h1]; exact ⟨nj, hg, rfl⟩
          · exact hL6 p h1

/-- When every neighbor index is in range, the expansion loop cannot panic. -/
lemma nsExpand_isSome (g : Graph) :
    ∀ (ns : List Nat) (h : List (Int × Nat)) (v : Finset Nat),
      (∀ j ∈ ns, j < g.nodes.length) →
      ∃ h' v', nsExpand g ns h v = some (h', v') := by
  intro ns
  induction ns with
  | nil => intro h v _; exact ⟨h, v, rfl⟩
  | cons j ns ih =>
    intro h v hr
    rw [nsExpand]
    by_cases hj : j ∈ v
    · rw [if_pos hj]
      exact ih h v (fun j' hj' => hr j' (List.mem_cons.2 (Or.inr hj')))
    · rw [if_neg hj]
      have hjr : j < g.nodes.length := hr j (List.mem_cons.2 (Or.inl rfl))
      cases hg : g.nodes[j]? with
      | none =>
        rw [List.getElem?_eq_none_iff] at hg
        omega
      | some nj =>
        exact ih _ _ (fun j' hj' => hr j' (List.mem_cons.2 (Or.inr hj')))

/-! ## Visited-set monotonicity (frontier re-insertion is impossible) -/

/-- One BFS `next` call never removes anything from the visited set and never
adds a new frontier occurrence of an already-visited index. -/
lemma bfsNextAux_visited_mono (g : Graph) :
    ∀ (q : List Nat) (vis : Finset Nat) (i : Nat), i ∈ vis →
      vis ⊆ (bfsNextAux g q vis).2.visited ∧
      (bfsNextAux g q vis).2.queue.count i ≤ q.count i := by
  intro q
  induction q with
  | nil =>
    intro vis i _
    rw [bfsNextAux]
    exact ⟨Finset.Subset.refl _, Nat.le_refl _⟩
  | cons j q ih =>
    intro vis i hi
    rw [bfsNextAux]
    by_cases hj : j ∈ vis
    · rw [if_pos hj]
      obtain ⟨h1, h2⟩ := ih vis i hi
      exact ⟨h1, Nat.le_trans h2 ((List.sublist_cons_self j q).count_le i)⟩
    · rw [if_neg hj]
      cases hg : g.nodes[j]? with
      | none =>
        exact ⟨Finset.subset_insert j vis, (List.sublist_cons_self j q).count_le i⟩
      | some node =>
        refine ⟨Finset.subset_insert j vis, ?_⟩
        have hfz : (node.neighbors.filter (fun b => decide (b ∉ insert j vis))).count i = 0 := by
          rw [List.count_eq_zero]
          intro hmem
          have := List.of_mem_filter hmem
          simp only [decide_eq_true_eq] at this
          exact this (Finset.mem_insert_of_mem hi)
        calc (q ++ node.neighbors.filter (fun b => decide (b ∉ insert j vis))).count i
            = q.count i + 0 := by rw [List.count_append, hfz]
          _ ≤ (j :: q).count i := by
              have := (List.sublist_cons_self j q).count_le i
              omega

/-- One DFS `next` call never removes anything from the visited set and never
adds a new frontier occurrence of an already-visited index. -/
lemma dfsNextAux_visited_mono (g : Graph) :
    ∀ (q : List Nat) (vis : Finset Nat) (i : Nat), i ∈ vis →
      vis ⊆ (dfsNextAux g q vis).2.visited ∧
      (dfsNextAux g q vis).2.stack.count i ≤ q.count i := by
  intro q
  induction q with
  | nil =>
    intro vis i _
    rw [dfsNextAux]
    exact ⟨Finset.Subset.refl _, Nat.le_refl _⟩
  | cons j q ih =>
    intro vis i hi
    rw [dfsNextAux]
    by_cases hj : j ∈ vis
    · rw [if_pos hj]
      obtain ⟨h1, h2⟩ := ih vis i hi
      exact ⟨h1, Nat.le_trans h2 ((List.sublist_cons_self j q).count_le i)⟩
    · rw [if_neg hj]
      cases hg : g.nodes[j]? with
      | none =>
        exact ⟨Finset.subset_insert j vis, (List.sublist_cons_self j q).count_le i⟩
      | some node =>
        refine ⟨Finset.subset_insert j vis, ?_⟩
        have hfz : (node.neighbors.filter (fun b => decide (b ∉ insert j vis))).count i = 0 := by
          rw [List.count_eq_zero]
          intro hmem
          have := List.of_mem_filter hmem
          simp only [decide_eq_true_eq] at this
          exact this (Finset.mem_insert_of_mem hi)
        calc (node.neighbors.filter (fun b => decide (b ∉ insert j vis)) ++ q).count i
            = 0 + q.count i := by rw [List.count_append, hfz]
          _ ≤ (j :: q).count i := by
              have := (List.sublist_cons_self j q).count_le i
              omega

/-- Case equation: `next` on an empty heap reports exhaustion. -/
lemma nsNext_eq_done (g : Graph) (st : NsState) (hp : heapPop st.heap = none) :
    nsNext g st = (.done, ⟨[], st.visited⟩) := by
  rw [nsNext, hp]

/-- Case equation: the popped index is out of range (panic). -/
lemma nsNext_eq_oob_lookup (g : Graph) (st : NsState) (v : Int) (k : Nat)
    (rest : List (Int × Nat)) (hp : heapPop st.heap = some ((v, k), rest))
    (hg : g.nodes[k]? = none) :
    nsNext g st = (.oob, ⟨rest, st.visited⟩) := by
  rw [nsNext, hp]
  simp [hg]

/-- Case equation: a neighbor index is out of range during expansion (panic). -/
lemma nsNext_eq_oob_expand (g : Graph) (st : NsState) (v : Int) (k : Nat)
    (rest : List (Int × Nat)) (node : Node)
    (hp : heapPop st.heap = some ((v, k), rest)) (hg : g.nodes[k]? = some node)
    (he : nsExpand g node.neighbors rest st.visited = none) :
    nsNext g st = (.oob, ⟨rest, st.visited⟩) := by
  rw [nsNext, hp]
  simp [hg, he]

/-- Case equation: a successful pop-expand-yield step. -/
lemma nsNext_eq_yield (g : Graph) (st : NsState) (v : Int) (k : Nat)
    (rest h' : List (Int × Nat)) (node : Node) (v' : Finset Nat)
    (hp : heapPop st.heap = some ((v, k), rest)) (hg : g.nodes[k]? = some node)
    (he : nsExpand g node.neighbors rest st.visited = some (h', v')) :
    nsNext g st = (.yield k, ⟨h', v'⟩) := by
  rw [nsNext, hp]
  simp [hg, he]

/-- One NextSmallest `next` call never removes anything from the visited set
and never adds a new heap occurrence of an already-visited index beyond those
already present. -/
lemma nsNext_visited_mono (g : Graph) (st : NsState) (i : Nat) (hi : i ∈ st.visited) :
    st.visited ⊆ (nsNext g st).2.visited ∧
    ((nsNext g st).2.heap.map Prod.snd).count i ≤ (st.heap.map Prod.snd).count i := by
  cases hp : heapPop st.heap with
  | none =>
    rw [nsNext_eq_done g st hp]
    exact ⟨Finset.Subset.refl _, by simp⟩
  | some pr =>
    obtain ⟨⟨v, k⟩, rest⟩ := pr
    obtain ⟨hmem, hmin, hrest, hperm⟩ := heapPop_spec hp
    have hrcount : (rest.map Prod.snd).count i ≤ (st.heap.map Prod.snd).count i := by
      have hpc := (hperm.map Prod.snd).count_eq i
      rw [hpc, List.map_cons]
      exact (List.sublist_cons_self _ _).count_le i
    cases hg : g.nodes[k]? with
    | none =>
      rw [nsNext_eq_oob_lookup g st v k rest hp hg]
      exact ⟨Finset.Subset.refl _, hrcount⟩
    | some node =>
      cases he : nsExpand g node.neighbors rest st.visited with
      | none =>
        rw [nsNext_eq_oob_expand g st v k rest node hp hg he]
        exact ⟨Finset.Subset.refl _, hrcount⟩
      | some pr2 =>
        obtain ⟨h', v'⟩ := pr2
        rw [nsNext_eq_yield g st v k rest h' node v' hp hg he]
        obtain ⟨L, hL1, hL2, _, hL4, _, _⟩ := nsExpand_spec g node.neighbors rest st.visited h' v' he
        constructor
        · rw [hL2]
          exact Finset.subset_union_left
        · have hLz : (L.map Prod.snd).count i = 0 := by
            rw [List.count_eq_zero]
            intro hmemL
            obtain ⟨p, hpL, hps⟩ := List.mem_map.1 hmemL
            exact (hL4 p hpL).2 (hps ▸ hi)
          have hgoal : ((rest ++ L).map Prod.snd).count i ≤ (st.heap.map Prod.snd).count i := by
            rw [List.map_append, List.count_append, hLz]
            omega
          show (h'.map Prod.snd).count i ≤ (st.heap.map Prod.snd).count i
          rw [hL1]
          exact hgoal

/-- C5: for each of the three iterators, the visited set only grows across a
`next` call, and the number of frontier occurrences of an already-visited
index never increases — a visited index is never re-inserted into the
frontier. -/
theorem visited_monotone (g : Graph) :
    (∀ (st : BfsState) (i : Nat), i ∈ st.visited →
      st.visited ⊆ (bfsNext g st).2.visited ∧
      (bfsNext g st).2.queue.count i ≤ st.queue.count i) ∧
    (∀ (st : DfsState) (i : Nat), i ∈ st.visited →
      st.visited ⊆ (dfsNext g st).2.visited ∧
      (dfsNext g st).2.stack.count i ≤ st.stack.count i) ∧
    (∀ (st : NsState) (i : Nat), i ∈ st.visited →
      st.visited ⊆ (nsNext g st).2.visited ∧
      ((nsNext g st).2.heap.map Prod.snd).count i ≤ (st.heap.map Prod.snd).count i) :=
  ⟨fun st i hi => bfsNextAux_visited_mono g st.queue st.visited i hi,
   fun st i hi => dfsNextAux_visited_mono g st.stack st.visited i hi,
   fun st i hi => nsNext_visited_mono g st i hi⟩

/-- Closed witness for visited-set monotonicity at concrete mid-traversal
states of the demonstration graph. -/
theorem visited_monotone_witness :
    ((0 : Nat) ∈ (⟨[1, 2], {0}⟩ : BfsState).visited ∧
      (⟨[1, 2], {0}⟩ : BfsState).visited ⊆ (bfsNext demoGraph ⟨[1, 2], {0}⟩).2.visited ∧
      (bfsNext demoGraph ⟨[1, 2], {0}⟩).2.queue.count 0 ≤ ([1, 2] : List Nat).count 0) ∧
    ((0 : Nat) ∈ (⟨[1, 2], {0}⟩ : DfsState).visited ∧
      (⟨[1, 2], {0}⟩ : DfsState).visited ⊆ (dfsNext demoGraph ⟨[1, 2], {0}⟩).2.visited ∧
      (dfsNext demoGraph ⟨[1, 2], {0}⟩).2.stack.count 0 ≤ ([1, 2] : List Nat).count 0) ∧
    ((0 : Nat) ∈ (⟨[(1, 1), (2, 2)], {0, 1, 2}⟩ : NsState).visited ∧
      (⟨[(1, 1), (2, 2)], {0, 1, 2}⟩ : NsState).visited ⊆
        (nsNext demoGraph ⟨[(1, 1), (2, 2)], {0, 1, 2}⟩).2.visited ∧
      ((nsNext demoGraph ⟨[(1, 1), (2, 2)], {0, 1, 2}⟩).2.heap.map Prod.snd).count 0 ≤
        (([(1, 1), (2, 2)] : List (Int × Nat)).map Prod.snd).count 0) :=
  ⟨⟨by decide, (visited_monotone demoGraph).1 ⟨[1, 2], {0}⟩ 0 (by decide)⟩,
   ⟨by decide, (visited_monotone demoGraph).2.1 ⟨[1, 2], {0}⟩ 0 (by decide)⟩,
   ⟨by decide, (visited_monotone demoGraph).2.2 ⟨[(1, 1), (2, 2)], {0, 1, 2}⟩ 0 (by decide)⟩⟩

/-! ## C1: priority traversal yield order -/

/-- Membership from a successful indexed lookup. -/
lemma mem_of_lookup {l : List Node} {n : Nat} {a : Node} (h : l[n]? = some a) : a ∈ l := by
  obtain ⟨hn, hval⟩ := List.getElem?_eq_some_iff.1 h
  exact hval ▸ List.getElem_mem hn

/-- A two-node graph whose start node has the larger value: the start (value
10) must be yielded before its only neighbor (value 5) is even discovered. -/
def twoGraph : Graph :=
  ⟨[⟨10, [1]⟩, ⟨5, []⟩]⟩

/-- C1 (counterexample): the values yielded by the priority traversal are not
non-decreasing in general — on `twoGraph` from start 0 the full traversal
yields values 10 then 5. -/
theorem ns_values_not_monotone_counterexample :
    yieldValues twoGraph (nsRun twoGraph 3 (nsNew twoGraph 0)).1 = [10, 5] ∧
    (nsRun twoGraph 3 (nsNew twoGraph 0)).2.1 = .finished ∧
    ¬ List.Pairwise (fun a b : Int => a ≤ b)
        (yieldValues twoGraph (nsRun twoGraph 3 (nsNew twoGraph 0)).1) := by
  decide

/-- C1 (amended): each `next` call of the priority traversal yields the node
whose `(value, index)` pair is the lexicographic minimum of the current heap —
the smallest value among all nodes discovered so far but not yet yielded.
(The yielded values need not be globally non-decreasing: a smaller-valued node
discovered only later is yielded after its discoverer.) -/
theorem ns_yields_frontier_min (g : Graph) (st : NsState) (v : Int) (k : Nat)
    (rest : List (Int × Nat)) (hp : heapPop st.heap = some ((v, k), rest))
    (hr : ∀ p ∈ st.heap, p.2 < g.nodes.length) (hwf : WF g) :
    (nsNext g st).1 = .yield k ∧ ∀ q ∈ st.heap, pairLe (v, k) q := by
  obtain ⟨hmem, hmin, hrest, hperm⟩ := heapPop_spec hp
  have hk : k < g.nodes.length := hr (v, k) hmem
  cases hg : g.nodes[k]? with
  | none =>
    rw [List.getElem?_eq_none_iff] at hg
    omega
  | some node =>
    have hnr : ∀ j ∈ node.neighbors, j < g.nodes.length :=
      fun j hj => hwf node (mem_of_lookup hg) j hj
    obtain ⟨h', v', he⟩ := nsExpand_isSome g node.neighbors rest st.visited hnr
    rw [nsNext_eq_yield g st v k rest h' node v' hp hg he]
    exact ⟨rfl, hmin⟩

/-- Closed witness for the frontier-minimum theorem at a mid-traversal state
of the demonstration graph. -/
theorem ns_yields_frontier_min_witness :
    heapPop ((⟨[(2, 2), (1, 1)], {0, 1, 2}⟩ : NsState).heap) = some ((1, 1), [(2, 2)]) ∧
    (∀ p ∈ (⟨[(2, 2), (1, 1)], {0, 1, 2}⟩ : NsState).heap, p.2 < demoGraph.nodes.length) ∧
    WF demoGraph ∧
    ((nsNext demoGraph ⟨[(2, 2), (1, 1)], {0, 1, 2}⟩).1 = .yield 1 ∧
      ∀ q ∈ (⟨[(2, 2), (1, 1)], {0, 1, 2}⟩ : NsState).heap, pairLe (1, 1) q) :=
  ⟨by decide, by decide, by decide,
    ns_yields_frontier_min demoGraph ⟨[(2, 2), (1, 1)], {0, 1, 2}⟩ 1 1 [(2, 2)]
      (by decide) (by decide) (by decide)⟩

/-! ## BFS correctness: every reachable node is yielded exactly once -/

/-- Run invariant for the BFS iterator, relating the state to the list `ys`
of indices yielded so far. -/
structure BfsInv (g : Graph) (s : Nat) (ys : List Nat) (st : BfsState) : Prop where
  visEq : st.visited = ys.toFinset
  nodupY : ys.Nodup
  reachY : ∀ i ∈ ys, ReachableG g s i
  reachQ : ∀ i ∈ st.queue, ReachableG g s i
  closed : ∀ i ∈ st.visited, ∀ j, edge g i j → j ∈ st.visited ∨ j ∈ st.queue
  startMem : s ∈ st.visited ∨ s ∈ st.queue
  qRange : ∀ i ∈ st.queue, i < g.nodes.length

/-- With a successful lookup, `nbrs` is the node's neighbor list. -/
lemma nbrs_eq {g : Graph} {i : Nat} {node : Node} (hg : g.nodes[i]? = some node) :
    nbrs g i = node.neighbors := by
  rw [nbrs, hg]
  rfl

/-- An in-range index looks up to the corresponding `List.get`. -/
lemma lookup_eq_get {l : List Node} {i : Nat} (h : i < l.length) :
    l[i]? = some (l.get ⟨i, h⟩) := by
  rw [List.getElem?_eq_getElem h]
  rfl

/-- The invariant holds for the initial BFS state of a valid start. -/
lemma bfsInv_init (g : Graph) (s : Nat) (hs : s < g.nodes.length) :
    BfsInv g s [] ⟨[s], ∅⟩ := by
  refine ⟨rfl, List.nodup_nil, ?_, ?_, ?_, ?_, ?_⟩
  · intro i hi; simp at hi
  · intro i hi
    rcases List.mem_cons.1 hi with h | h
    · rw [h]; exact Relation.ReflTransGen.refl
    · simp at h
  · intro i hi; simp at hi
  · exact Or.inr (List.mem_cons.2 (Or.inl rfl))
  · intro i hi
    rcases List.mem_cons.1 hi with h | h
    · rw [h]; exact hs
    · simp at h

/-- One BFS `next` call preserves the invariant: it either reports exhaustion
with an empty queue and unchanged visited set, or yields a fresh in-range
index. -/
lemma bfsNextAux_step (g : Graph) (s : Nat) (hwf : WF g) :
    ∀ (q : List Nat) (vis : Finset Nat) (ys : List Nat),
      BfsInv g s ys ⟨q, vis⟩ →
      ((bfsNextAux g q vis) = (.done, ⟨[], vis⟩) ∧ BfsInv g s ys ⟨[], vis⟩) ∨
      (∃ i, (bfsNextAux g q vis).1 = .yield i ∧ i < g.nodes.length ∧ i ∉ vis ∧
        (bfsNextAux g q vis).2.visited = insert i vis ∧
        BfsInv g s (ys ++ [i]) (bfsNextAux g q vis).2) := by
  intro q
  induction q with
  | nil =>
    intro vis ys hinv
    left
    refine ⟨by rw [bfsNextAux], ?_⟩
    refine ⟨hinv.visEq, hinv.nodupY, hinv.reachY, fun i hi => by simp at hi, ?_, ?_,
      fun i hi => by simp at hi⟩
    · intro i hi j hj
      rcases hinv.closed i hi j hj with h | h
      · exact Or.inl h
      · simp at h
    · rcases hinv.startMem with h | h
      · exact Or.inl h
      · simp at h
  | cons i q ih =>
    intro vis ys hinv
    by_cases hi : i ∈ vis
    · have hinv' : BfsInv g s ys ⟨q, vis⟩ := by
        refine ⟨hinv.visEq, hinv.nodupY, hinv.reachY,
          fun j hj => hinv.reachQ j (List.mem_cons.2 (Or.inr hj)), ?_, ?_,
          fun j hj => hinv.qRange j (List.mem_cons.2 (Or.inr hj))⟩
        · intro a ha j hj
          rcases hinv.closed a ha j hj with h | h
          · exact Or.inl h
          · rcases List.mem_cons.1 h with h1 | h1
            · exact Or.inl (h1 ▸ hi)
            · exact Or.inr h1
        · rcases hinv.startMem with h | h
          · exact Or.inl h
          · rcases List.mem_cons.1 h with h1 | h1
            · exact Or.inl (h1 ▸ hi)
            · exact Or.inr h1
      have heq : bfsNextAux g (i :: q) vis = bfsNextAux g q vis := by
        rw [bfsNextAux, if_pos hi]
      rw [heq]
      exact ih vis ys hinv'
    · have hiN : i < g.nodes.length := hinv.qRange i (List.mem_cons.2 (Or.inl rfl))
      have hg : g.nodes[i]? = some (g.nodes.get ⟨i, hiN⟩) := lookup_eq_get hiN
      set node := g.nodes.get ⟨i, hiN⟩ with hnode
      have heq : bfsNextAux g (i :: q) vis =
          (.yield i, ⟨q ++ node.neighbors.filter (fun j => decide (j ∉ insert i vis)),
            insert i vis⟩) := by
        rw [bfsNextAux, if_neg hi, hg]
      right
      refine ⟨i, by rw [heq], hiN, hi, by rw [heq], ?_⟩
      rw [heq]
      have hreach_i : ReachableG g s i := hinv.reachQ i (List.mem_cons.2 (Or.inl rfl))
      have hnbrs : nbrs g i = node.neighbors := nbrs_eq hg
      have hnode_mem : node ∈ g.nodes := mem_of_lookup hg
      have hv : vis = ys.toFinset := hinv.visEq
      refine ⟨?_, ?_, ?_, ?_, ?_, ?_, ?_⟩
      · show insert i vis = (ys ++ [i]).toFinset
        rw [hv]
        ext x
        simp [List.mem_toFinset, List.mem_append, Finset.mem_insert, or_comm]
      · rw [List.nodup_append]
        refine ⟨hinv.nodupY, List.nodup_singleton i, ?_⟩
        intro a ha hb
        rcases List.mem_singleton.1 hb with rfl
        rw [hv] at hi
        exact hi (List.mem_toFinset.2 ha)
      · intro a ha
        rcases List.mem_append.1 ha with h | h
        · exact hinv.reachY a h
        · rcases List.mem_singleton.1 h with rfl
          exact hreach_i
      · intro a ha
        rcases List.mem_append.1 ha with h | h
        · exact hinv.reachQ a (List.mem_cons.2 (Or.inr h))
        · have hmem : a ∈ node.neighbors := List.mem_of_mem_filter h
          exact Relation.ReflTransGen.tail hreach_i (by rw [edge, hnbrs]; exact hmem)
      · intro a ha j hj
        rcases Finset.mem_insert.1 ha with h | h
        · subst h
          rw [edge, hnbrs] at hj
          by_cases hjv : j ∈ insert a vis
          · exact Or.inl hjv
          · refine Or.inr (List.mem_append.2 (Or.inr ?_))
            exact List.mem_filter.2 ⟨hj, by simpa using hjv⟩
        · rcases hinv.closed a h j hj with h1 | h1
          · exact Or.inl (Finset.mem_insert_of_mem h1)
          · rcases List.mem_cons.1 h1 with h2 | h2
            · exact Or.inl (h2 ▸ Finset.mem_insert_self i vis)
            · exact Or.inr (List.mem_append.2 (Or.inl h2))
      · rcases hinv.startMem with h | h
        · exact Or.inl (Finset.mem_insert_of_mem h)
        · rcases List.mem_cons.1 h with h1 | h1
          · exact Or.inl (h1 ▸ Finset.mem_insert_self i vis)
          · exact Or.inr (List.mem_append.2 (Or.inl h1))
      · intro a ha
        rcases List.mem_append.1 ha with h | h
        · exact hinv.qRange a (List.mem_cons.2 (Or.inr h))
        · exact hwf node hnode_mem a (List.mem_of_mem_filter h)

/-- Running the BFS iterator with enough fuel finishes, drains the queue, and
preserves the invariant on the accumulated yield list. -/
lemma bfsRun_spec (g : Graph) (s : Nat) (hwf : WF g) :
    ∀ (fuel : Nat) (st : BfsState) (ys : List Nat),
      BfsInv g s ys st →
      (Finset.range g.nodes.length \ st.visited).card < fuel →
      (bfsRun g fuel st).2.1 = .finished ∧
      (bfsRun g fuel st).2.2.queue = [] ∧
      BfsInv g s (ys ++ (bfsRun g fuel st).1) (bfsRun g fuel st).2.2 := by
  intro fuel
  induction fuel with
  | zero => intro st ys _ hcard; omega
  | succ fuel ih =>
    intro st ys hinv hcard
    have hinv0 : BfsInv g s ys ⟨st.queue, st.visited⟩ := hinv
    rcases bfsNextAux_step g s hwf st.queue st.visited ys hinv0 with hdone | hyield
    · obtain ⟨h1, h2⟩ := hdone
      have hn : bfsNext g st = (.done, ⟨[], st.visited⟩) := h1
      rw [bfsRun, hn]
      exact ⟨rfl, rfl, by simpa using h2⟩
    · obtain ⟨i, h1, hiN, hivis, hvis', hinv'⟩ := hyield
      have h1' : (bfsNext g st).1 = NRes.yield i := h1
      have hvis'' : (bfsNext g st).2.visited = insert i st.visited := hvis'
      have hinv'' : BfsInv g s (ys ++ [i]) (bfsNext g st).2 := hinv'
      have hcard' : (Finset.range g.nodes.length \ (bfsNext g st).2.visited).card < fuel := by
        have hss : Finset.range g.nodes.length \ (bfsNext g st).2.visited ⊂
            Finset.range g.nodes.length \ st.visited := by
          rw [hvis'']
          constructor
          · intro x hx
            rcases Finset.mem_sdiff.1 hx with ⟨hx1, hx2⟩
            exact Finset.mem_sdiff.2 ⟨hx1, fun hx3 => hx2 (Finset.mem_insert_of_mem hx3)⟩
          · intro hsub
            have hiIn : i ∈ Finset.range g.nodes.length \ st.visited :=
              Finset.mem_sdiff.2 ⟨Finset.mem_range.2 hiN, hivis⟩
            have := Finset.mem_sdiff.1 (hsub hiIn)
            exact this.2 (Finset.mem_insert_self i st.visited)
        have := Finset.card_lt_card hss
        omega
      obtain ⟨ih1, ih2, ih3⟩ := ih (bfsNext g st).2 (ys ++ [i]) hinv'' hcard'
      rw [bfsRun]
      split
      next i2 st2 hb =>
        have h1b : NRes.yield i2 = NRes.yield i := by rw [hb] at h1'; exact h1'
        injection h1b with hii
        subst hii
        have hst2 : st2 = (bfsNext g st).2 := by rw [hb]
        rw [hst2]
        refine ⟨ih1, ih2, ?_⟩
        show BfsInv g s (ys ++ i2 :: (bfsRun g fuel (bfsNext g st).2).1)
          (bfsRun g fuel (bfsNext g st).2).2.2
        have happ : ys ++ i2 :: (bfsRun g fuel (bfsNext g st).2).1
            = (ys ++ [i2]) ++ (bfsRun g fuel (bfsNext g st).2).1 := by simp
        rw [happ]
        exact ih3
      next st2 hb =>
        rw [hb] at h1'
        simp at h1'
      next st2 hb =>
        rw [hb] at h1'
        simp at h1'

/-- At a drained final state the invariant gives the exact-once theorem: the
yield list has no duplicates and contains precisely the reachable nodes. -/
lemma bfsInv_final {g : Graph} {s : Nat} {ys : List Nat} {st : BfsState}
    (hinv : BfsInv g s ys st) (hq : st.queue = []) :
    ys.Nodup ∧ ∀ v, v ∈ ys ↔ ReachableG g s v := by
  have hclosed : ∀ i ∈ st.visited, ∀ j, edge g i j → j ∈ st.visited := by
    intro i hi j hj
    rcases hinv.closed i hi j hj with h | h
    · exact h
    · rw [hq] at h; simp at h
  have hs : s ∈ st.visited := by
    rcases hinv.startMem with h | h
    · exact h
    · rw [hq] at h; simp at h
  refine ⟨hinv.nodupY, fun v => ⟨hinv.reachY v, fun hr => ?_⟩⟩
  have hv : v ∈ st.visited := by
    induction hr with
    | refl => exact hs
    | tail _ he ihv => exact hclosed _ ihv _ he
  have hveq : st.visited = ys.toFinset := hinv.visEq
  rw [hveq] at hv
  exact List.mem_toFinset.1 hv

/-! ## DFS correctness: every reachable node is yielded exactly once -/

/-- Run invariant for the DFS iterator. -/
structure DfsInv (g : Graph) (s : Nat) (ys : List Nat) (st : DfsState) : Prop where
  visEq : st.visited = ys.toFinset
  nodupY : ys.Nodup
  reachY : ∀ i ∈ ys, ReachableG g s i
  reachQ : ∀ i ∈ st.stack, ReachableG g s i
  closed : ∀ i ∈ st.visited, ∀ j, edge g i j → j ∈ st.visited ∨ j ∈ st.stack
  startMem : s ∈ st.visited ∨ s ∈ st.stack
  qRange : ∀ i ∈ st.stack, i < g.nodes.length

/-- The invariant holds for the initial DFS state of a valid start. -/
lemma dfsInv_init (g : Graph) (s : Nat) (hs : s < g.nodes.length) :
    DfsInv g s [] ⟨[s], ∅⟩ := by
  refine ⟨rfl, List.nodup_nil, ?_, ?_, ?_, ?_, ?_⟩
  · intro i hi; simp at hi
  · intro i hi
    rcases List.mem_cons.1 hi with h | h
    · rw [h]; exact Relation.ReflTransGen.refl
    · simp at h
  · intro i hi; simp at hi
  · exact Or.inr (List.mem_cons.2 (Or.inl rfl))
  · intro i hi
    rcases List.mem_cons.1 hi with h | h
    · rw [h]; exact hs
    · simp at h

/-- One DFS `next` call preserves the invariant. -/
lemma dfsNextAux_step (g : Graph) (s : Nat) (hwf : WF g) :
    ∀ (q : List Nat) (vis : Finset Nat) (ys : List Nat),
      DfsInv g s ys ⟨q, vis⟩ →
      ((dfsNextAux g q vis) = (.done, ⟨[], vis⟩) ∧ DfsInv g s ys ⟨[], vis⟩) ∨
      (∃ i, (dfsNextAux g q vis).1 = .yield i ∧ i < g.nodes.length ∧ i ∉ vis ∧
        (dfsNextAux g q vis).2.visited = insert i vis ∧
        DfsInv g s (ys ++ [i]) (dfsNextAux g q vis).2) := by
  intro q
  induction q with
  | nil =>
    intro vis ys hinv
    left
    refine ⟨by rw [dfsNextAux], ?_⟩
    refine ⟨hinv.visEq, hinv.nodupY, hinv.reachY, fun i hi => by simp at hi, ?_, ?_,
      fun i hi => by simp at hi⟩
    · intro i hi j hj
      rcases hinv.closed i hi j hj with h | h
      · exact Or.inl h
      · simp at h
    · rcases hinv.startMem with h | h
      · exact Or.inl h
      · simp at h
  | cons i q ih =>
    intro vis ys hinv
    by_cases hi : i ∈ vis
    · have hinv' : DfsInv g s ys ⟨q, vis⟩ := by
        refine ⟨hinv.visEq, hinv.nodupY, hinv.reachY,
          fun j hj => hinv.reachQ j (List.mem_cons.2 (Or.inr hj)), ?_, ?_,
          fun j hj => hinv.qRange j (List.mem_cons.2 (Or.inr hj))⟩
        · intro a ha j hj
          rcases hinv.closed a ha j hj with h | h
          · exact Or.inl h
          · rcases List.mem_cons.1 h with h1 | h1
            · exact Or.inl (h1 ▸ hi)
            · exact Or.inr h1
        · rcases hinv.startMem with h | h
          · exact Or.inl h
          · rcases List.mem_cons.1 h with h1 | h1
            · exact Or.inl (h1 ▸ hi)
            · exact Or.inr h1
      have heq : dfsNextAux g (i :: q) vis = dfsNextAux g q vis := by
        rw [dfsNextAux, if_pos hi]
      rw [heq]
      exact ih vis ys hinv'
    · have hiN : i < g.nodes.length := hinv.qRange i (List.mem_cons.2 (Or.inl rfl))
      have hg : g.nodes[i]? = some (g.nodes.get ⟨i, hiN⟩) := lookup_eq_get hiN
      set node := g.nodes.get ⟨i, hiN⟩ with hnode
      have heq : dfsNextAux g (i :: q) vis =
          (.yield i, ⟨node.neighbors.filter (fun j => decide (j ∉ insert i vis)) ++ q,
            insert i vis⟩) := by
        rw [dfsNextAux, if_neg hi, hg]
      right
      refine ⟨i, by rw [heq], hiN, hi, by rw [heq], ?_⟩
      rw [heq]
      have hreach_i : ReachableG g s i := hinv.reachQ i (List.mem_cons.2 (Or.inl rfl))
      have hnbrs : nbrs g i = node.neighbors := nbrs_eq hg
      have hnode_mem : node ∈ g.nodes := mem_of_lookup hg
      have hv : vis = ys.toFinset := hinv.visEq
      refine ⟨?_, ?_, ?_, ?_, ?_, ?_, ?_⟩
      · show insert i vis = (ys ++ [i]).toFinset
        rw [hv]
        ext x
        simp [List.mem_toFinset, List.mem_append, Finset.mem_insert, or_comm]
      · rw [List.nodup_append]
        refine ⟨hinv.nodupY, List.nodup_singleton i, ?_⟩
        intro a ha hb
        rcases List.mem_singleton.1 hb with rfl
        rw [hv] at hi
        exact hi (List.mem_toFinset.2 ha)
      · intro a ha
        rcases List.mem_append.1 ha with h | h
        · exact hinv.reachY a h
        · rcases List.mem_singleton.1 h with rfl
          exact hreach_i
      · intro a ha
        rcases List.mem_append.1 ha with h | h
        · have hmem : a ∈ node.neighbors := List.mem_of_mem_filter h
          exact Relation.ReflTransGen.tail hreach_i (by rw [edge, hnbrs]; exact hmem)
        · exact hinv.reachQ a (List.mem_cons.2 (Or.inr h))
      · intro a ha j hj
        rcases Finset.mem_insert.1 ha with h | h
        · subst h
          rw [edge, hnbrs] at hj
          by_cases hjv : j ∈ insert a vis
          · exact Or.inl hjv
          · refine Or.inr (List.mem_append.2 (Or.inl ?_))
            exact List.mem_filter.2 ⟨hj, by simpa using hjv⟩
        · rcases hinv.closed a h j hj with h1 | h1
          · exact Or.inl (Finset.mem_insert_of_mem h1)
          · rcases List.mem_cons.1 h1 with h2 | h2
            · exact Or.inl (h2 ▸ Finset.mem_insert_self i vis)
            · exact Or.inr (List.mem_append.2 (Or.inr h2))
      · rcases hinv.startMem with h | h
        · exact Or.inl (Finset.mem_insert_of_mem h)
        · rcases List.mem_cons.1 h with h1 | h1
          · exact Or.inl (h1 ▸ Finset.mem_insert_self i vis)
          · exact Or.inr (List.mem_append.2 (Or.inr h1))
      · intro a ha
        rcases List.mem_append.1 ha with h | h
        · exact hwf node hnode_mem a (List.mem_of_mem_filter h)
        · exact hinv.qRange a (List.mem_cons.2 (Or.inr h))

/-- Running the DFS iterator with enough fuel finishes, drains the stack, and
preserves the invariant. -/
lemma dfsRun_spec (g : Graph) (s : Nat) (hwf : WF g) :
    ∀ (fuel : Nat) (st : DfsState) (ys : List Nat),
      DfsInv g s ys st →
      (Finset.range g.nodes.length \ st.visited).card < fuel →
      (dfsRun g fuel st).2.1 = .finished ∧
      (dfsRun g fuel st).2.2.stack = [] ∧
      DfsInv g s (ys ++ (dfsRun g fuel st).1) (dfsRun g fuel st).2.2 := by
  intro fuel
  induction fuel with
  | zero => intro st ys _ hcard; omega
  | succ fuel ih =>
    intro st ys hinv hcard
    have hinv0 : DfsInv g s ys ⟨st.stack, st.visited⟩ := hinv
    rcases dfsNextAux_step g s hwf st.stack st.visited ys hinv0 with hdone | hyield
    · obtain ⟨h1, h2⟩ := hdone
      have hn : dfsNext g st = (.done, ⟨[], st.visited⟩) := h1
      rw [dfsRun, hn]
      exact ⟨rfl, rfl, by simpa using h2⟩
    · obtain ⟨i, h1, hiN, hivis, hvis', hinv'⟩ := hyield
      have h1' : (dfsNext g st).1 = NRes.yield i := h1
      have hvis'' : (dfsNext g st).2.visited = insert i st.visited := hvis'
      have hinv'' : DfsInv g s (ys ++ [i]) (dfsNext g st).2 := hinv'
      have hcard' : (Finset.range g.nodes.length \ (dfsNext g st).2.visited).card < fuel := by
        have hss : Finset.range g.nodes.length \ (dfsNext g st).2.visited ⊂
            Finset.range g.nodes.length \ st.visited := by
          rw [hvis'']
          constructor
          · intro x hx
            rcases Finset.mem_sdiff.1 hx with ⟨hx1, hx2⟩
            exact Finset.mem_sdiff.2 ⟨hx1, fun hx3 => hx2 (Finset.mem_insert_of_mem hx3)⟩
          · intro hsub
            have hiIn : i ∈ Finset.range g.nodes.length \ st.visited :=
              Finset.mem_sdiff.2 ⟨Finset.mem_range.2 hiN, hivis⟩
            have := Finset.mem_sdiff.1 (hsub hiIn)
            exact this.2 (Finset.mem_insert_self i st.visited)
        have := Finset.card_lt_card hss
        omega
      obtain ⟨ih1, ih2, ih3⟩ := ih (dfsNext g st).2 (ys ++ [i]) hinv'' hcard'
      rw [dfsRun]
      split
      next i2 st2 hb =>
        have h1b : NRes.yield i2 = NRes.yield i := by rw [hb] at h1'; exact h1'
        injection h1b with hii
        subst hii
        have hst2 : st2 = (dfsNext g st).2 := by rw [hb]
        rw [hst2]
        refine ⟨ih1, ih2, ?_⟩
        show DfsInv g s (ys ++ i2 :: (dfsRun g fuel (dfsNext g st).2).1)
          (dfsRun g fuel (dfsNext g st).2).2.2
        have happ : ys ++ i2 :: (dfsRun g fuel (dfsNext g st).2).1
            = (ys ++ [i2]) ++ (dfsRun g fuel (dfsNext g st).2).1 := by simp
        rw [happ]
        exact ih3
      next st2 hb =>
        rw [hb] at h1'
        simp at h1'
      next st2 hb =>
        rw [hb] at h1'
        simp at h1'

/-- At a drained final DFS state the invariant gives the exact-once theorem. -/
lemma dfsInv_final {g : Graph} {s : Nat} {ys : List Nat} {st : DfsState}
    (hinv : DfsInv g s ys st) (hq : st.stack = []) :
    ys.Nodup ∧ ∀ v, v ∈ ys ↔ ReachableG g s v := by
  have hclosed : ∀ i ∈ st.visited, ∀ j, edge g i j → j ∈ st.visited := by
    intro i hi j hj
    rcases hinv.closed i hi j hj with h | h
    · exact h
    · rw [hq] at h; simp at h
  have hs : s ∈ st.visited := by
    rcases hinv.startMem with h | h
    · exact h
    · rw [hq] at h; simp at h
  refine ⟨hinv.nodupY, fun v => ⟨hinv.reachY v, fun hr => ?_⟩⟩
  have hv : v ∈ st.visited := by
    induction hr with
    | refl => exact hs
    | tail _ he ihv => exact hclosed _ ihv _ he
  have hveq : st.visited = ys.toFinset := hinv.visEq
  rw [hveq] at hv
  exact List.mem_toFinset.1 hv

/-! ## NextSmallest correctness: every reachable node is yielded exactly once -/

/-- Run invariant for the NextSmallest iterator: visited is exactly the
yielded nodes together with the heap contents (marking happens at push time),
the heap never holds an index twice nor an already-yielded index, and every
yielded node has all its neighbors already visited. -/
structure NsInv (g : Graph) (s : Nat) (ys : List Nat) (st : NsState) : Prop where
  visEq : st.visited = ys.toFinset ∪ (st.heap.map Prod.snd).toFinset
  nodupY : ys.Nodup
  nodupH : (st.heap.map Prod.snd).Nodup
  disjYH : ∀ i ∈ ys, i ∉ st.heap.map Prod.snd
  reachVis : ∀ i ∈ st.visited, ReachableG g s i
  closedY : ∀ i ∈ ys, ∀ j, edge g i j → j ∈ st.visited
  startVis : s ∈ st.visited
  hRange : ∀ p ∈ st.heap, p.2 < g.nodes.length

/-- The invariant holds for the initial NextSmallest state of a valid start. -/
lemma nsInv_init (g : Graph) (s : Nat) (hs : s < g.nodes.length) :
    NsInv g s [] (nsNew g s) := by
  have hg : g.nodes[s]? = some (g.nodes.get ⟨s, hs⟩) := lookup_eq_get hs
  have hnew : nsNew g s = ⟨[((g.nodes.get ⟨s, hs⟩).value, s)], {s}⟩ := by
    rw [nsNew, hg]
  rw [hnew]
  refine ⟨?_, List.nodup_nil, ?_, ?_, ?_, ?_, ?_, ?_⟩
  · ext x; simp
  · simp
  · intro i hi; simp at hi
  · intro i hi
    have : i = s := by simpa using hi
    rw [this]
    exact Relation.ReflTransGen.refl
  · intro i hi; simp at hi
  · exact Finset.mem_singleton_self s
  · intro p hp
    have : p = ((g.nodes.get ⟨s, hs⟩).value, s) := by simpa using hp
    rw [this]
    exact hs

/-- One NextSmallest `next` call preserves the invariant: it either reports
exhaustion on the empty heap, or yields a heap index, preserving the
invariant and decreasing the measure `heap length + unvisited count` by one. -/
lemma nsNext_step (g : Graph) (s : Nat) (hwf : WF g) (st : NsState) (ys : List Nat)
    (hinv : NsInv g s ys st) :
    (st.heap = [] ∧ nsNext g st = (.done, ⟨[], st.visited⟩) ∧
      NsInv g s ys ⟨[], st.visited⟩) ∨
    (∃ k, (nsNext g st).1 = .yield k ∧ k ∈ st.heap.map Prod.snd ∧
      NsInv g s (ys ++ [k]) (nsNext g st).2 ∧
      (nsNext g st).2.heap.length +
          (Finset.range g.nodes.length \ (nsNext g st).2.visited).card + 1
        = st.heap.length + (Finset.range g.nodes.length \ st.visited).card) := by
  cases hp : heapPop st.heap with
  | none =>
    left
    have hnil : st.heap = [] := heapPop_eq_none hp
    refine ⟨hnil, nsNext_eq_done g st hp, ?_⟩
    have hveq : st.visited = ys.toFinset ∪ ((st.heap.map Prod.snd).toFinset) := hinv.visEq
    rw [hnil] at hveq
    exact ⟨by simpa using hveq, hinv.nodupY, by simp, by simp, hinv.reachVis,
      hinv.closedY, hinv.startVis, fun p hp' => by simp at hp'⟩
  | some pr =>
    obtain ⟨⟨v, k⟩, rest⟩ := pr
    obtain ⟨hmem, hmin, hrest, hperm⟩ := heapPop_spec hp
    have hk : k < g.nodes.length := hinv.hRange (v, k) hmem
    have hg : g.nodes[k]? = some (g.nodes.get ⟨k, hk⟩) := lookup_eq_get hk
    set node := g.nodes.get ⟨k, hk⟩ with hnodedef
    have hnode_mem : node ∈ g.nodes := mem_of_lookup hg
    have hnbrs : nbrs g k = node.neighbors := nbrs_eq hg
    have hnr : ∀ j ∈ node.neighbors, j < g.nodes.length :=
      fun j hj => hwf node hnode_mem j hj
    obtain ⟨h', v', he⟩ := nsExpand_isSome g node.neighbors rest st.visited hnr
    have hyield := nsNext_eq_yield g st v k rest h' node v' hp hg he
    obtain ⟨L, hL1, hL2, hL3, hL4, hL5, hL6⟩ :=
      nsExpand_spec g node.neighbors rest st.visited h' v' he
    -- index-level facts
    have hpermIdx : (st.heap.map Prod.snd).Perm (k :: rest.map Prod.snd) := by
      have := hperm.map Prod.snd
      simpa using this
    have hIdxF : (st.heap.map Prod.snd).toFinset = insert k (rest.map Prod.snd).toFinset := by
      rw [List.toFinset_eq_of_perm _ _ hpermIdx, List.toFinset_cons]
    have hkrest : ((k :: rest.map Prod.snd)).Nodup := (hpermIdx.nodup_iff).1 hinv.nodupH
    have hknotrest : k ∉ rest.map Prod.snd := (List.nodup_cons.1 hkrest).1
    have hrestnodup : (rest.map Prod.snd).Nodup := (List.nodup_cons.1 hkrest).2
    have hrestsub : ∀ a, a ∈ rest.map Prod.snd → a ∈ st.heap.map Prod.snd := by
      intro a ha
      exact hpermIdx.mem_iff.2 (List.mem_cons.2 (Or.inr ha))
    have hksub : k ∈ st.heap.map Prod.snd := List.mem_map_of_mem Prod.snd hmem
    have hheapsubvis : ∀ a, a ∈ st.heap.map Prod.snd → a ∈ st.visited := by
      intro a ha
      rw [hinv.visEq]
      exact Finset.mem_union_right _ (List.mem_toFinset.2 ha)
    have hLfresh : ∀ a, a ∈ L.map Prod.snd → a ∉ st.visited := by
      intro a ha
      obtain ⟨p, hpL, hps⟩ := List.mem_map.1 ha
      exact hps ▸ (hL4 p hpL).2
    have hLrange : ∀ a, a ∈ L.map Prod.snd → a < g.nodes.length := by
      intro a ha
      obtain ⟨p, hpL, hps⟩ := List.mem_map.1 ha
      exact hps ▸ hnr p.2 (hL4 p hpL).1
    have hknotys : k ∉ ys := fun hys => hinv.disjYH k hys hksub
    have hkvis : k ∈ st.visited := hheapsubvis k hksub
    have hreachk : ReachableG g s k := hinv.reachVis k hkvis
    right
    refine ⟨k, by rw [hyield], hksub, ?_, ?_⟩
    · rw [hyield]
      refine ⟨?_, ?_, ?_, ?_, ?_, ?_, ?_, ?_⟩
      · show v' = (ys ++ [k]).toFinset ∪ ((h'.map Prod.snd).toFinset)
        rw [hL2, hL1, hinv.visEq, hIdxF]
        ext x
        simp only [Finset.mem_union, Finset.mem_insert, List.mem_toFinset, List.map_append,
          List.toFinset_append, List.mem_append, List.mem_singleton]
        tauto
      · rw [List.nodup_append]
        exact ⟨hinv.nodupY, List.nodup_singleton k,
          fun a ha hb => (List.mem_singleton.1 hb ▸ hknotys) (List.mem_singleton.1 hb ▸ ha)⟩
      · show ((h'.map Prod.snd)).Nodup
        rw [hL1, List.map_append, List.nodup_append]
        refine ⟨hrestnodup, hL3, ?_⟩
        intro a ha hb
        exact hLfresh a hb (hheapsubvis a (hrestsub a ha))
      · intro i hi
        show i ∉ h'.map Prod.snd
        rw [hL1, List.map_append]
        intro hmem'
        rcases List.mem_append.1 hmem' with h1 | h1
        · rcases List.mem_append.1 hi with h2 | h2
          · exact hinv.disjYH i h2 (hrestsub i h1)
          · rcases List.mem_singleton.1 h2 with rfl
            exact hknotrest h1
        · rcases List.mem_append.1 hi with h2 | h2
          · have hivis : i ∈ st.visited := by
              rw [hinv.visEq]
              exact Finset.mem_union_left _ (List.mem_toFinset.2 h2)
            exact hLfresh i h1 hivis
          · rcases List.mem_singleton.1 h2 with rfl
            exact hLfresh i h1 hkvis
      · intro i hi
        show ReachableG g s i
        have hiv : i ∈ st.visited ∪ (L.map Prod.snd).toFinset := by
          have : i ∈ v' := hi
          rw [hL2] at this
          exact this
        rcases Finset.mem_union.1 hiv with h1 | h1
        · exact hinv.reachVis i h1
        · obtain ⟨p, hpL, hps⟩ := List.mem_map.1 (List.mem_toFinset.1 h1)
          have hedge : edge g k i := by
            rw [edge, hnbrs]
            exact hps ▸ (hL4 p hpL).1
          exact Relation.ReflTransGen.tail hreachk hedge
      · intro i hi j hj
        show j ∈ v'
        rcases List.mem_append.1 hi with h1 | h1
        · have := hinv.closedY i h1 j hj
          rw [hL2]
          exact Finset.mem_union_left _ this
        · rcases List.mem_singleton.1 h1 with rfl
          rw [edge, hnbrs] at hj
          exact hL5 j hj
      · show s ∈ v'
        rw [hL2]
        exact Finset.mem_union_left _ hinv.startVis
      · intro p hp'
        show p.2 < g.nodes.length
        have : p ∈ rest ++ L := by
          have hph : p ∈ h' := hp'
          rw [hL1] at hph
          exact hph
        rcases List.mem_append.1 this with h1 | h1
        · exact hinv.hRange p (hperm.mem_iff.2 (List.mem_cons.2 (Or.inr h1)))
        · exact hnr p.2 (hL4 p h1).1
    · -- measure equation
      rw [hyield]
      show h'.length + (Finset.range g.nodes.length \ v').card + 1
        = st.heap.length + (Finset.range g.nodes.length \ st.visited).card
      have hlen : st.heap.length = rest.length + 1 := by
        have := hperm.length_eq
        simpa using this
      have hlenh : h'.length = rest.length + L.length := by
        rw [hL1, List.length_append]
      have hLF : (L.map Prod.snd).toFinset.card = L.length := by
        rw [List.toFinset_card_of_nodup hL3, List.length_map]
      have hsub : (L.map Prod.snd).toFinset ⊆
          Finset.range g.nodes.length \ st.visited := by
        intro a ha
        have ham := List.mem_toFinset.1 ha
        exact Finset.mem_sdiff.2 ⟨Finset.mem_range.2 (hLrange a ham), hLfresh a ham⟩
      have hsdiff : Finset.range g.nodes.length \ v' =
          (Finset.range g.nodes.length \ st.visited) \ (L.map Prod.snd).toFinset := by
        rw [hL2]
        ext x
        simp only [Finset.mem_sdiff, Finset.mem_union]
        tauto
      have hcardeq : (Finset.range g.nodes.length \ v').card =
          (Finset.range g.nodes.length \ st.visited).card - L.length := by
        rw [hsdiff, Finset.card_sdiff hsub, hLF]
      have hLle : L.length ≤ (Finset.range g.nodes.length \ st.visited).card := by
        rw [← hLF]
        exact Finset.card_le_card hsub
      omega

/-- Running the NextSmallest iterator with enough fuel finishes, empties the
heap, and preserves the invariant. -/
lemma nsRun_spec (g : Graph) (s : Nat) (hwf : WF g) :
    ∀ (fuel : Nat) (st : NsState) (ys : List Nat),
      NsInv g s ys st →
      st.heap.length + (Finset.range g.nodes.length \ st.visited).card < fuel →
      (nsRun g fuel st).2.1 = .finished ∧
      (nsRun g fuel st).2.2.heap = [] ∧
      NsInv g s (ys ++ (nsRun g fuel st).1) (nsRun g fuel st).2.2 := by
  intro fuel
  induction fuel with
  | zero => intro st ys _ hcard; omega
  | succ fuel ih =>
    intro st ys hinv hcard
    rcases nsNext_step g s hwf st ys hinv with hdone | hyield
    · obtain ⟨hnil, h1, h2⟩ := hdone
      rw [nsRun, h1]
      exact ⟨rfl, rfl, by simpa using h2⟩
    · obtain ⟨k, h1, hksub, hinv', hmeas⟩ := hyield
      have hcard' : (nsNext g st).2.heap.length +
          (Finset.range g.nodes.length \ (nsNext g st).2.visited).card < fuel := by
        omega
      obtain ⟨ih1, ih2, ih3⟩ := ih (nsNext g st).2 (ys ++ [k]) hinv' hcard'
      rw [nsRun]
      split
      next i2 st2 hb =>
        have h1b : NRes.yield i2 = NRes.yield k := by rw [hb] at h1; exact h1
        injection h1b with hii
        subst hii
        have hst2 : st2 = (nsNext g st).2 := by rw [hb]
        rw [hst2]
        refine ⟨ih1, ih2, ?_⟩
        show NsInv g s (ys ++ i2 :: (nsRun g fuel (nsNext g st).2).1)
          (nsRun g fuel (nsNext g st).2).2.2
        have happ : ys ++ i2 :: (nsRun g fuel (nsNext g st).2).1
            = (ys ++ [i2]) ++ (nsRun g fuel (nsNext g st).2).1 := by simp
        rw [happ]
        exact ih3
      next st2 hb =>
        rw [hb] at h1
        simp at h1
      next st2 hb =>
        rw [hb] at h1
        simp at h1

/-- At an empty-heap final state the NextSmallest invariant gives the
exact-once theorem. -/
lemma nsInv_final {g : Graph} {s : Nat} {ys : List Nat} {st : NsState}
    (hinv : NsInv g s ys st) (hq : st.heap = []) :
    ys.Nodup ∧ ∀ v, v ∈ ys ↔ ReachableG g s v := by
  have hveq : st.visited = ys.toFinset := by
    have := hinv.visEq
    rw [hq] at this
    simpa using this
  have hclosed : ∀ i ∈ ys, ∀ j, edge g i j → j ∈ ys := by
    intro i hi j hj
    have := hinv.closedY i hi j hj
    rw [hveq] at this
    exact List.mem_toFinset.1 this
  have hs : s ∈ ys := by
    have := hinv.startVis
    rw [hveq] at this
    exact List.mem_toFinset.1 this
  refine ⟨hinv.nodupY, fun v => ⟨?_, fun hr => ?_⟩⟩
  · intro hv
    exact hinv.reachVis v (by rw [hveq]; exact List.mem_toFinset.2 hv)
  · induction hr with
    | refl => exact hs
    | tail _ he ihv => exact hclosed _ ihv _ he

/-! ## Claim theorems: exact-once coverage and termination -/

/-- C4: for a well-formed graph and a valid start, each of the three
iterators, run to exhaustion, yields every node reachable from the start
exactly once: the yield list has no duplicates and its members are precisely
the reachable nodes. -/
theorem traversals_yield_reachable_exactly_once (g : Graph) (s : Nat)
    (hwf : WF g) (hs : s < g.nodes.length) :
    ((bfsRun g (g.nodes.length + 1) (bfsNew g s)).1.Nodup ∧
      ∀ v, v ∈ (bfsRun g (g.nodes.length + 1) (bfsNew g s)).1 ↔ ReachableG g s v) ∧
    ((dfsRun g (g.nodes.length + 1) (dfsNew g s)).1.Nodup ∧
      ∀ v, v ∈ (dfsRun g (g.nodes.length + 1) (dfsNew g s)).1 ↔ ReachableG g s v) ∧
    ((nsRun g (g.nodes.length + 1) (nsNew g s)).1.Nodup ∧
      ∀ v, v ∈ (nsRun g (g.nodes.length + 1) (nsNew g s)).1 ↔ ReachableG g s v) := by
  have hcard : (Finset.range g.nodes.length \ (∅ : Finset Nat)).card < g.nodes.length + 1 := by
    rw [Finset.sdiff_empty, Finset.card_range]
    omega
  refine ⟨?_, ?_, ?_⟩
  · obtain ⟨h1, hq, hinv⟩ := bfsRun_spec g s hwf (g.nodes.length + 1) (bfsNew g s) []
      (bfsInv_init g s hs) hcard
    have := bfsInv_final hinv hq
    simpa using this
  · obtain ⟨h1, hq, hinv⟩ := dfsRun_spec g s hwf (g.nodes.length + 1) (dfsNew g s) []
      (dfsInv_init g s hs) hcard
    have := dfsInv_final hinv hq
    simpa using this
  · have hg : g.nodes[s]? = some (g.nodes.get ⟨s, hs⟩) := lookup_eq_get hs
    have hnew : nsNew g s = ⟨[((g.nodes.get ⟨s, hs⟩).value, s)], {s}⟩ := by
      rw [nsNew, hg]
    have hsub : ({s} : Finset Nat) ⊆ Finset.range g.nodes.length := by
      intro x hx
      rcases Finset.mem_singleton.1 hx with rfl
      exact Finset.mem_range.2 hs
    have hmeas : (nsNew g s).heap.length +
        (Finset.range g.nodes.length \ (nsNew g s).visited).card < g.nodes.length + 1 := by
      rw [hnew]
      show 1 + (Finset.range g.nodes.length \ {s}).card < g.nodes.length + 1
      rw [Finset.card_sdiff hsub, Finset.card_range, Finset.card_singleton]
      omega
    obtain ⟨h1, hq, hinv⟩ := nsRun_spec g s hwf (g.nodes.length + 1) (nsNew g s) []
      (nsInv_init g s hs) hmeas
    have := nsInv_final hinv hq
    simpa using this

/-- Closed witness for the exact-once theorem at the demonstration graph. -/
theorem traversals_yield_reachable_exactly_once_witness :
    WF demoGraph ∧ 0 < demoGraph.nodes.length ∧
    (((bfsRun demoGraph (demoGraph.nodes.length + 1) (bfsNew demoGraph 0)).1.Nodup ∧
      ∀ v, v ∈ (bfsRun demoGraph (demoGraph.nodes.length + 1) (bfsNew demoGraph 0)).1 ↔
        ReachableG demoGraph 0 v) ∧
    ((dfsRun demoGraph (demoGraph.nodes.length + 1) (dfsNew demoGraph 0)).1.Nodup ∧
      ∀ v, v ∈ (dfsRun demoGraph (demoGraph.nodes.length + 1) (dfsNew demoGraph 0)).1 ↔
        ReachableG demoGraph 0 v) ∧
    ((nsRun demoGraph (demoGraph.nodes.length + 1) (nsNew demoGraph 0)).1.Nodup ∧
      ∀ v, v ∈ (nsRun demoGraph (demoGraph.nodes.length + 1) (nsNew demoGraph 0)).1 ↔
        ReachableG demoGraph 0 v)) :=
  ⟨by decide, by decide,
    traversals_yield_reachable_exactly_once demoGraph 0 (by decide) (by decide)⟩

/-- C9: for a well-formed graph and a valid start, each of the three
iterators terminates: driving it for node-count-plus-one `next` calls reaches
the exhaustion signal (the run finishes, rather than running out of fuel or
failing). -/
theorem traversals_terminate (g : Graph) (s : Nat) (hwf : WF g)
    (hs : s < g.nodes.length) :
    (bfsRun g (g.nodes.length + 1) (bfsNew g s)).2.1 = .finished ∧
    (dfsRun g (g.nodes.length + 1) (dfsNew g s)).2.1 = .finished ∧
    (nsRun g (g.nodes.length + 1) (nsNew g s)).2.1 = .finished := by
  have hcard : (Finset.range g.nodes.length \ (∅ : Finset Nat)).card < g.nodes.length + 1 := by
    rw [Finset.sdiff_empty, Finset.card_range]
    omega
  refine ⟨?_, ?_, ?_⟩
  · exact (bfsRun_spec g s hwf (g.nodes.length + 1) (bfsNew g s) []
      (bfsInv_init g s hs) hcard).1
  · exact (dfsRun_spec g s hwf (g.nodes.length + 1) (dfsNew g s) []
      (dfsInv_init g s hs) hcard).1
  · have hg : g.nodes[s]? = some (g.nodes.get ⟨s, hs⟩) := lookup_eq_get hs
    have hnew : nsNew g s = ⟨[((g.nodes.get ⟨s, hs⟩).value, s)], {s}⟩ := by
      rw [nsNew, hg]
    have hsub : ({s} : Finset Nat) ⊆ Finset.range g.nodes.length := by
      intro x hx
      rcases Finset.mem_singleton.1 hx with rfl
      exact Finset.mem_range.2 hs
    have hmeas : (nsNew g s).heap.length +
        (Finset.range g.nodes.length \ (nsNew g s).visited).card < g.nodes.length + 1 := by
      rw [hnew]
      show 1 + (Finset.range g.nodes.length \ {s}).card < g.nodes.length + 1
      rw [Finset.card_sdiff hsub, Finset.card_range, Finset.card_singleton]
      omega
    exact (nsRun_spec g s hwf (g.nodes.length + 1) (nsNew g s) []
      (nsInv_init g s hs) hmeas).1

/-- Closed witness for the termination theorem at the demonstration graph. -/
theorem traversals_terminate_witness :
    WF demoGraph ∧ 0 < demoGraph.nodes.length ∧
    ((bfsRun demoGraph (demoGraph.nodes.length + 1) (bfsNew demoGraph 0)).2.1 = .finished ∧
     (dfsRun demoGraph (demoGraph.nodes.length + 1) (dfsNew demoGraph 0)).2.1 = .finished ∧
     (nsRun demoGraph (demoGraph.nodes.length + 1) (nsNew demoGraph 0)).2.1 = .finished) :=
  ⟨by decide, by decide, traversals_terminate demoGraph 0 (by decide) (by decide)⟩

/-! ## C10: NextSmallest heap discipline -/

/-- C10: in the NextSmallest iterator, if every heap index is visited and no
index occurs twice in the heap, one `next` call preserves both properties,
and whenever the heap is non-empty the call yields the popped element — a
popped element is never discarded as already-visited. -/
theorem ns_heap_visited_invariant (g : Graph) (st : NsState)
    (hsub : ∀ p ∈ st.heap, p.2 ∈ st.visited)
    (hnodup : (st.heap.map Prod.snd).Nodup)
    (hrange : ∀ p ∈ st.heap, p.2 < g.nodes.length)
    (hwf : WF g) :
    (∀ p ∈ (nsNext g st).2.heap, p.2 ∈ (nsNext g st).2.visited) ∧
    ((nsNext g st).2.heap.map Prod.snd).Nodup ∧
    (st.heap ≠ [] → ∃ v k rest, heapPop st.heap = some ((v, k), rest) ∧
      (nsNext g st).1 = .yield k) := by
  cases hp : heapPop st.heap with
  | none =>
    have hnil : st.heap = [] := heapPop_eq_none hp
    rw [nsNext_eq_done g st hp]
    exact ⟨fun p hp' => by simp at hp', by simp, fun hne => absurd hnil hne⟩
  | some pr =>
    obtain ⟨⟨v, k⟩, rest⟩ := pr
    obtain ⟨hmem, hmin, hrest, hperm⟩ := heapPop_spec hp
    have hk : k < g.nodes.length := hrange (v, k) hmem
    have hg : g.nodes[k]? = some (g.nodes.get ⟨k, hk⟩) := lookup_eq_get hk
    set node := g.nodes.get ⟨k, hk⟩ with hnodedef
    have hnr : ∀ j ∈ node.neighbors, j < g.nodes.length :=
      fun j hj => hwf node (mem_of_lookup hg) j hj
    obtain ⟨h', v', he⟩ := nsExpand_isSome g node.neighbors rest st.visited hnr
    have hyield := nsNext_eq_yield g st v k rest h' node v' hp hg he
    obtain ⟨L, hL1, hL2, hL3, hL4, hL5, hL6⟩ :=
      nsExpand_spec g node.neighbors rest st.visited h' v' he
    have hrestmem : ∀ p, p ∈ rest → p ∈ st.heap :=
      fun p hpr => hperm.mem_iff.2 (List.mem_cons.2 (Or.inr hpr))
    rw [hyield]
    refine ⟨?_, ?_, fun _ => ⟨v, k, rest, rfl, rfl⟩⟩
    · intro p hp'
      have hph : p ∈ rest ++ L := by
        have : p ∈ h' := hp'
        rw [hL1] at this
        exact this
      show p.2 ∈ v'
      rcases List.mem_append.1 hph with h1 | h1
      · rw [hL2]
        exact Finset.mem_union_left _ (hsub p (hrestmem p h1))
      · rw [hL2]
        exact Finset.mem_union_right _
          (List.mem_toFinset.2 (List.mem_map_of_mem Prod.snd h1))
    · show (h'.map Prod.snd).Nodup
      have hpermIdx : (st.heap.map Prod.snd).Perm (k :: rest.map Prod.snd) := by
        have := hperm.map Prod.snd
        simpa using this
      have hkrest : ((k :: rest.map Prod.snd)).Nodup := (hpermIdx.nodup_iff).1 hnodup
      rw [hL1, List.map_append, List.nodup_append]
      refine ⟨(List.nodup_cons.1 hkrest).2, hL3, ?_⟩
      intro a ha hb
      obtain ⟨p, hpr, hps⟩ := List.mem_map.1 ha
      obtain ⟨p2, hp2L, hp2s⟩ := List.mem_map.1 hb
      have : p2.2 ∉ st.visited := (hL4 p2 hp2L).2
      rw [hp2s, ← hps] at this
      exact this (hsub p (hrestmem p hpr))

/-- Closed witness for the heap-discipline theorem at a mid-traversal state
of the demonstration graph. -/
theorem ns_heap_visited_invariant_witness :
    (∀ p ∈ (⟨[(1, 1), (2, 2)], {0, 1, 2}⟩ : NsState).heap,
        p.2 ∈ (⟨[(1, 1), (2, 2)], {0, 1, 2}⟩ : NsState).visited) ∧
    ((((⟨[(1, 1), (2, 2)], {0, 1, 2}⟩ : NsState).heap).map Prod.snd).Nodup) ∧
    (∀ p ∈ (⟨[(1, 1), (2, 2)], {0, 1, 2}⟩ : NsState).heap, p.2 < demoGraph.nodes.length) ∧
    WF demoGraph ∧
    ((∀ p ∈ (nsNext demoGraph ⟨[(1, 1), (2, 2)], {0, 1, 2}⟩).2.heap,
        p.2 ∈ (nsNext demoGraph ⟨[(1, 1), (2, 2)], {0, 1, 2}⟩).2.visited) ∧
      ((nsNext demoGraph ⟨[(1, 1), (2, 2)], {0, 1, 2}⟩).2.heap.map Prod.snd).Nodup ∧
      ((⟨[(1, 1), (2, 2)], {0, 1, 2}⟩ : NsState).heap ≠ [] →
        ∃ v k rest, heapPop (⟨[(1, 1), (2, 2)], {0, 1, 2}⟩ : NsState).heap
            = some ((v, k), rest) ∧
          (nsNext demoGraph ⟨[(1, 1), (2, 2)], {0, 1, 2}⟩).1 = .yield k)) :=
  ⟨by decide, by decide, by decide, by decide,
    ns_heap_visited_invariant demoGraph ⟨[(1, 1), (2, 2)], {0, 1, 2}⟩
      (by decide) (by decide) (by decide) (by decide)⟩

/-! ## C6: BFS yields nodes in non-decreasing distance order

To reason about BFS layers, we instrument the BFS iterator: each queue entry
carries the depth at which it was enqueued (`start` at depth 0, a neighbor of
a node popped at depth `d` at depth `d + 1`).  The instrumented iterator is a
decoration of `bfsNextAux`: projecting the depths away recovers it exactly. -/

/-- Instrumented BFS state: queue entries carry their enqueue depth. -/
structure BfsStateD where
  queue : List (Nat × Nat)
  visited : Finset Nat
deriving DecidableEq

/-- Instrumented `next` outcome: the yield carries (index, depth). -/
inductive NResD where
  | yield (p : Nat × Nat)
  | done
  | oob
deriving DecidableEq

/-- Instrumented `BfsIterator::next`: same control flow as `bfsNextAux`, with
neighbors enqueued one depth below the popped entry. -/
def bfsNextAuxD (g : Graph) : List (Nat × Nat) → Finset Nat → NResD × BfsStateD
  | [], vis => (.done, ⟨[], vis⟩)
  | (i, d) :: q, vis =>
    if i ∈ vis then
      bfsNextAuxD g q vis
    else
      let vis' := insert i vis
      match g.nodes[i]? with
      | none => (.oob, ⟨q, vis'⟩)
      | some node =>
        (.yield (i, d),
          ⟨q ++ (node.neighbors.filter (fun j => decide (j ∉ vis'))).map (fun j => (j, d + 1)),
            vis'⟩)

/-- Drive the instrumented iterator, collecting (index, depth) yields. -/
def bfsRunD (g : Graph) : Nat → BfsStateD → List (Nat × Nat) × RunEnd × BfsStateD
  | 0, st => ([], .fuelOut, st)
  | fuel + 1, st =>
    match bfsNextAuxD g st.queue st.visited with
    | (.yield p, st') =>
      let r := bfsRunD g fuel st'
      (p :: r.1, r.2)
    | (.done, st') => ([], .finished, st')
    | (.oob, st') => ([], .oobEnd, st')

/-- Depth-erasing projection of instrumented states. -/
def projSt (st : BfsStateD) : BfsState :=
  ⟨st.queue.map Prod.fst, st.visited⟩

/-- Depth-erasing projection of instrumented step results. -/
def projRes : NResD × BfsStateD → NRes × BfsState
  | (.yield p, st) => (.yield p.1, projSt st)
  | (.done, st) => (.done, projSt st)
  | (.oob, st) => (.oob, projSt st)

/-- The instrumented step is a decoration of the plain BFS step. -/
lemma bfsNextAuxD_proj (g : Graph) :
    ∀ (q : List (Nat × Nat)) (vis : Finset Nat),
      projRes (bfsNextAuxD g q vis) = bfsNextAux g (q.map Prod.fst) vis := by
  intro q
  induction q with
  | nil =>
    intro vis
    rw [bfsNextAuxD]
    rfl
  | cons p q ih =>
    intro vis
    obtain ⟨i, d⟩ := p
    rw [bfsNextAuxD]
    show _ = bfsNextAux g (i :: q.map Prod.fst) vis
    rw [bfsNextAux]
    by_cases hi : i ∈ vis
    · rw [if_pos hi, if_pos hi]
      exact ih vis
    · rw [if_neg hi, if_neg hi]
      cases hg : g.nodes[i]? with
      | none => rfl
      | some node =>
        simp only [projRes, projSt, List.map_append, List.map_map]
        show (NRes.yield i, (⟨_ ++ _, insert i vis⟩ : BfsState)) = (NRes.yield i, ⟨_ ++ _, insert i vis⟩)
        refine congrArg (fun l => (NRes.yield i, (⟨List.map Prod.fst q ++ l, insert i vis⟩ : BfsState))) ?_
        show List.map (fun j => j) _ = _
        exact List.map_id' _

/-- The instrumented run projects onto the plain BFS run: same yields (after
depth erasure) and the same run outcome. -/
lemma bfsRunD_proj (g : Graph) :
    ∀ (fuel : Nat) (st : BfsStateD),
      (bfsRunD g fuel st).1.map Prod.fst = (bfsRun g fuel (projSt st)).1 ∧
      (bfsRunD g fuel st).2.1 = (bfsRun g fuel (projSt st)).2.1 := by
  intro fuel
  induction fuel with
  | zero => intro st; exact ⟨rfl, rfl⟩
  | succ fuel ih =>
    intro st
    have hproj := bfsNextAuxD_proj g st.queue st.visited
    rw [bfsRunD, bfsRun]
    cases hd : bfsNextAuxD g st.queue st.visited with
    | mk res std =>
      rw [hd] at hproj
      cases res with
      | yield p =>
        have hplain : bfsNext g (projSt st) = (.yield p.1, projSt std) := by
          show bfsNextAux g (st.queue.map Prod.fst) st.visited = _
          rw [← hproj]
          rfl
        rw [hplain]
        obtain ⟨ih1, ih2⟩ := ih std
        exact ⟨by rw [List.map_cons, ih1], ih2⟩
      | done =>
        have hplain : bfsNext g (projSt st) = (.done, projSt std) := by
          show bfsNextAux g (st.queue.map Prod.fst) st.visited = _
          rw [← hproj]
          rfl
        rw [hplain]
        exact ⟨rfl, rfl⟩
      | oob =>
        have hplain : bfsNext g (projSt st) = (.oob, projSt std) := by
          show bfsNextAux g (st.queue.map Prod.fst) st.visited = _
          rw [← hproj]
          rfl
        rw [hplain]
        exact ⟨rfl, rfl⟩

/-- A list all of whose elements equal a constant is pairwise `≤`-sorted. -/
lemma pairwise_const_le : ∀ (l : List Nat) (c : Nat), (∀ x ∈ l, x = c) →
    List.Pairwise (fun a b : Nat => a ≤ b) l := by
  intro l
  induction l with
  | nil => intro c _; exact List.Pairwise.nil
  | cons x l ih =>
    intro c hc
    refine List.pairwise_cons.2 ⟨?_, ih c (fun y hy => hc y (List.mem_cons.2 (Or.inr hy)))⟩
    intro y hy
    rw [hc x (List.mem_cons.2 (Or.inl rfl)), hc y (List.mem_cons.2 (Or.inr hy))]

/-- In a list of pairs with duplicate-free first components, the second
component is determined by the first. -/
lemma fst_nodup_unique : ∀ (l : List (Nat × Nat)) (a b c : Nat),
    (l.map Prod.fst).Nodup → (a, b) ∈ l → (a, c) ∈ l → b = c := by
  intro l
  induction l with
  | nil => intro a b c _ hb; simp at hb
  | cons p l ih =>
    intro a b c hnd hb hc
    rw [List.map_cons, List.nodup_cons] at hnd
    obtain ⟨hp1, hp2⟩ := hnd
    rcases List.mem_cons.1 hb with h1 | h1 <;> rcases List.mem_cons.1 hc with h2 | h2
    · have hb2 : b = p.2 := by rw [← h1]
      have hc2 : c = p.2 := by rw [← h2]
      rw [hb2, hc2]
    · exfalso
      apply hp1
      have ha : p.1 = a := by rw [← h1]
      rw [ha]
      exact List.mem_map_of_mem Prod.fst h2
    · exfalso
      apply hp1
      have ha : p.1 = a := by rw [← h2]
      rw [ha]
      exact List.mem_map_of_mem Prod.fst h1
    · exact ih a b c hp2 h1 h2

/-- Depth invariant for the instrumented BFS run: queue depths are sorted and
span at most two consecutive layers, yields are depth-sorted with each yield
at its recorded layer, visited equals the yielded indices, and every neighbor
of a yielded node is recorded (in yields or queue) at most one layer deeper.
The start is either already yielded at depth 0 or the traversal has not
started yet. -/
structure BfsDInv (g : Graph) (s : Nat) (ds : List (Nat × Nat)) (st : BfsStateD)
    (dl : Nat) : Prop where
  qSorted : List.Pairwise (fun a b : Nat => a ≤ b) (st.queue.map Prod.snd)
  qLB : ∀ p ∈ st.queue, dl ≤ p.2
  qUB : ∀ p ∈ st.queue, p.2 ≤ dl + 1
  yUB : ∀ p ∈ ds, p.2 ≤ dl
  ySorted : List.Pairwise (fun a b : Nat => a ≤ b) (ds.map Prod.snd)
  qReach : ∀ p ∈ st.queue, p.1 ∈ reachSet g s p.2
  yReach : ∀ p ∈ ds, p.1 ∈ reachSet g s p.2
  visEqD : st.visited = (ds.map Prod.fst).toFinset
  nodupYD : (ds.map Prod.fst).Nodup
  closedD : ∀ p ∈ ds, ∀ j, edge g p.1 j →
    ∃ d', ((j, d') ∈ ds ∨ (j, d') ∈ st.queue) ∧ d' ≤ p.2 + 1
  startD : (s, 0) ∈ ds ∨ (ds = [] ∧ st.queue = [(s, 0)] ∧ st.visited = ∅)
  qRangeD : ∀ p ∈ st.queue, p.1 < g.nodes.length

/-- The depth invariant holds initially. -/
lemma bfsDInv_init (g : Graph) (s : Nat) (hs : s < g.nodes.length) :
    BfsDInv g s [] ⟨[(s, 0)], ∅⟩ 0 := by
  refine ⟨?_, ?_, ?_, ?_, ?_, ?_, ?_, rfl, List.nodup_nil, ?_, Or.inr ⟨rfl, rfl, rfl⟩, ?_⟩
  · simp
  · intro p hp
    rcases List.mem_singleton.1 hp with rfl
    exact Nat.le_refl 0
  · intro p hp
    rcases List.mem_singleton.1 hp with rfl
    omega
  · intro p hp; simp at hp
  · simp
  · intro p hp
    rcases List.mem_singleton.1 hp with rfl
    show s ∈ reachSet g s 0
    rw [reachSet]
    exact Finset.mem_singleton_self s
  · intro p hp; simp at hp
  · intro p hp; simp at hp
  · intro p hp
    rcases List.mem_singleton.1 hp with rfl
    exact hs

/-- One instrumented BFS `next` call preserves the depth invariant: it either
reports exhaustion, or yields an (index, depth) pair whose depth becomes the
new last-yield depth. -/
lemma bfsNextAuxD_step (g : Graph) (s : Nat) (hwf : WF g) :
    ∀ (q : List (Nat × Nat)) (vis : Finset Nat) (ds : List (Nat × Nat)) (dl : Nat),
      BfsDInv g s ds ⟨q, vis⟩ dl →
      ((bfsNextAuxD g q vis) = (.done, ⟨[], vis⟩) ∧ BfsDInv g s ds ⟨[], vis⟩ dl) ∨
      (∃ i d, (bfsNextAuxD g q vis).1 = .yield (i, d) ∧
        BfsDInv g s (ds ++ [(i, d)]) (bfsNextAuxD g q vis).2 d) := by
  intro q
  induction q with
  | nil =>
    intro vis ds dl hinv
    left
    refine ⟨by rw [bfsNextAuxD], ?_⟩
    refine ⟨by simp, fun p hp => by simp at hp, fun p hp => by simp at hp, hinv.yUB,
      hinv.ySorted, fun p hp => by simp at hp, hinv.yReach, hinv.visEqD, hinv.nodupYD,
      ?_, ?_, fun p hp => by simp at hp⟩
    · intro p hp j hj
      obtain ⟨d', hd1, hd2⟩ := hinv.closedD p hp j hj
      rcases hd1 with h | h
      · exact ⟨d', Or.inl h, hd2⟩
      · exact absurd h (List.not_mem_nil _)
    · rcases hinv.startD with h | ⟨h1, h2, h3⟩
      · exact Or.inl h
      · exact absurd h2 (by simp)
  | cons p0 q ih =>
    intro vis ds dl hinv
    obtain ⟨i, d⟩ := p0
    have hqhead : ((i, d) : Nat × Nat) ∈ (i, d) :: q := List.mem_cons.2 (Or.inl rfl)
    have hqsorted : List.Pairwise (fun a b : Nat => a ≤ b) (d :: q.map Prod.snd) := by
      simpa using hinv.qSorted
    have hvisEq : vis = (ds.map Prod.fst).toFinset := hinv.visEqD
    have hdl_d : dl ≤ d := hinv.qLB (i, d) hqhead
    by_cases hi : i ∈ vis
    · -- skip an already-visited entry
      have hiys : ∃ py, py ∈ ds ∧ py.1 = i := by
        have hmem : i ∈ ds.map Prod.fst := by
          apply List.mem_toFinset.1
          rw [← hvisEq]
          exact hi
        obtain ⟨py, hpy, hpy1⟩ := List.mem_map.1 hmem
        exact ⟨py, hpy, hpy1⟩
      obtain ⟨py, hpyds, hpy1⟩ := hiys
      have hstart' : (s, 0) ∈ ds ∨ (ds = [] ∧ q = [(s, 0)] ∧ vis = ∅) := by
        rcases hinv.startD with h | ⟨h1, h2, h3⟩
        · exact Or.inl h
        · exfalso
          have h3' : vis = ∅ := h3
          rw [h3'] at hi
          simp at hi
      have hinv' : BfsDInv g s ds ⟨q, vis⟩ dl := by
        refine ⟨(List.pairwise_cons.1 hqsorted).2,
          fun p hp => hinv.qLB p (List.mem_cons.2 (Or.inr hp)),
          fun p hp => hinv.qUB p (List.mem_cons.2 (Or.inr hp)),
          hinv.yUB, hinv.ySorted,
          fun p hp => hinv.qReach p (List.mem_cons.2 (Or.inr hp)),
          hinv.yReach, hinv.visEqD, hinv.nodupYD, ?_, hstart',
          fun p hp => hinv.qRangeD p (List.mem_cons.2 (Or.inr hp))⟩
        intro p hp j hj
        obtain ⟨d', hd1, hd2⟩ := hinv.closedD p hp j hj
        rcases hd1 with h | h
        · exact ⟨d', Or.inl h, hd2⟩
        · rcases List.mem_cons.1 h with h1 | h1
          · have hji : j = i := congrArg Prod.fst h1
            have hdd : d' = d := congrArg Prod.snd h1
            refine ⟨py.2, Or.inl ?_, ?_⟩
            · rw [hji, ← hpy1]
              exact hpyds
            · have h2 := hinv.yUB py hpyds
              omega
          · exact ⟨d', Or.inr h1, hd2⟩
      have heq : bfsNextAuxD g ((i, d) :: q) vis = bfsNextAuxD g q vis := by
        rw [bfsNextAuxD, if_pos hi]
      rw [heq]
      exact ih vis ds dl hinv'
    · -- yield
      have hiN : i < g.nodes.length := hinv.qRangeD (i, d) hqhead
      have hg : g.nodes[i]? = some (g.nodes.get ⟨i, hiN⟩) := lookup_eq_get hiN
      set node := g.nodes.get ⟨i, hiN⟩ with hnodedef
      have hnbrs : nbrs g i = node.neighbors := nbrs_eq hg
      have hnode_mem : node ∈ g.nodes := mem_of_lookup hg
      set fil := node.neighbors.filter (fun j => decide (j ∉ insert i vis)) with hfil
      set nw := fil.map (fun j => (j, d + 1)) with hnw
      have heq : bfsNextAuxD g ((i, d) :: q) vis =
          (.yield (i, d), ⟨q ++ nw, insert i vis⟩) := by
        rw [bfsNextAuxD, if_neg hi, hg]
      have hq_ge : ∀ p ∈ q, d ≤ p.2 := by
        intro p hp
        exact (List.pairwise_cons.1 hqsorted).1 p.2 (List.mem_map_of_mem Prod.snd hp)
      have hnw_snd : ∀ p ∈ nw, p.2 = d + 1 := by
        intro p hp
        obtain ⟨j, hj, hjp⟩ := List.mem_map.1 hp
        rw [← hjp]
      have hfil_nbrs : ∀ j ∈ fil, j ∈ node.neighbors := fun j hj => List.mem_of_mem_filter hj
      have hfil_not : ∀ j ∈ fil, j ∉ insert i vis := by
        intro j hj
        have := List.of_mem_filter hj
        simpa using this
      have hreach_i : i ∈ reachSet g s d := hinv.qReach (i, d) hqhead
      right
      refine ⟨i, d, by rw [heq], ?_⟩
      rw [heq]
      refine ⟨?_, ?_, ?_, ?_, ?_, ?_, ?_, ?_, ?_, ?_, ?_, ?_⟩
      · -- queue depths sorted
        show List.Pairwise _ ((q ++ nw).map Prod.snd)
        rw [List.map_append, List.pairwise_append]
        refine ⟨(List.pairwise_cons.1 hqsorted).2, ?_, ?_⟩
        · refine pairwise_const_le (nw.map Prod.snd) (d + 1) ?_
          intro x hx
          obtain ⟨p, hp, hpx⟩ := List.mem_map.1 hx
          rw [← hpx]
          exact hnw_snd p hp
        · intro a ha b hb
          obtain ⟨pa, hpa, hpa2⟩ := List.mem_map.1 ha
          obtain ⟨pb, hpb, hpb2⟩ := List.mem_map.1 hb
          have h1 : a ≤ dl + 1 := by
            rw [← hpa2]
            exact hinv.qUB pa (List.mem_cons.2 (Or.inr hpa))
          have h2 : b = d + 1 := by
            rw [← hpb2]
            exact hnw_snd pb hpb
          omega
      · -- queue depths bounded below by the new last depth
        intro p hp
        rcases List.mem_append.1 hp with h | h
        · exact hq_ge p h
        · rw [hnw_snd p h]
          omega
      · -- queue depths bounded above
        intro p hp
        rcases List.mem_append.1 hp with h | h
        · have := hinv.qUB p (List.mem_cons.2 (Or.inr h))
          omega
        · rw [hnw_snd p h]
      · -- yield depths bounded by the new last depth
        intro p hp
        rcases List.mem_append.1 hp with h | h
        · have := hinv.yUB p h
          omega
        · rcases List.mem_singleton.1 h with rfl
          exact Nat.le_refl d
      · -- yield depths sorted
        show List.Pairwise _ ((ds ++ [(i, d)]).map Prod.snd)
        rw [List.map_append, List.pairwise_append]
        refine ⟨hinv.ySorted, by simp, ?_⟩
        intro a ha b hb
        obtain ⟨pa, hpa, hpa2⟩ := List.mem_map.1 ha
        have hb' : b = d := by simpa using hb
        have h1 : a ≤ dl := by
          rw [← hpa2]
          exact hinv.yUB pa hpa
        omega
      · -- queue entries lie in their recorded layer
        intro p hp
        rcases List.mem_append.1 hp with h | h
        · exact hinv.qReach p (List.mem_cons.2 (Or.inr h))
        · obtain ⟨j, hj, hjp⟩ := List.mem_map.1 h
          rw [← hjp]
          show j ∈ reachSet g s (d + 1)
          rw [reachSet]
          refine Finset.mem_biUnion.2 ⟨i, hreach_i, ?_⟩
          apply List.mem_toFinset.2
          rw [hnbrs]
          exact hfil_nbrs j hj
      · -- yields lie in their recorded layer
        intro p hp
        rcases List.mem_append.1 hp with h | h
        · exact hinv.yReach p h
        · rcases List.mem_singleton.1 h with rfl
          exact hreach_i
      · -- visited equals yielded indices
        show insert i vis = ((ds ++ [(i, d)]).map Prod.fst).toFinset
        rw [List.map_append, hvisEq]
        ext x
        simp [List.mem_toFinset, List.mem_append, Finset.mem_insert, or_comm]
      · -- yielded indices are duplicate-free
        rw [List.map_append, List.nodup_append]
        refine ⟨hinv.nodupYD, by simp, ?_⟩
        intro a ha hb
        have hb' : a = i := by simpa using hb
        rw [hb'] at ha
        apply hi
        rw [hvisEq]
        exact List.mem_toFinset.2 ha
      · -- neighbor closure with depth bounds
        intro p hp j hj
        rcases List.mem_append.1 hp with hpds | hpnew
        · obtain ⟨d', hd1, hd2⟩ := hinv.closedD p hpds j hj
          rcases hd1 with h | h
          · exact ⟨d', Or.inl (List.mem_append.2 (Or.inl h)), hd2⟩
          · rcases List.mem_cons.1 h with h1 | h1
            · have hji : j = i := congrArg Prod.fst h1
              have hdd : d' = d := congrArg Prod.snd h1
              refine ⟨d', Or.inl (List.mem_append.2 (Or.inr ?_)), hd2⟩
              rw [hji, hdd]
              exact List.mem_singleton.2 rfl
            · exact ⟨d', Or.inr (List.mem_append.2 (Or.inl h1)), hd2⟩
        · rcases List.mem_singleton.1 hpnew with rfl
          have hj' : edge g i j := hj
          rw [edge, hnbrs] at hj'
          by_cases hjv : j ∈ insert i vis
          · rcases Finset.mem_insert.1 hjv with hji | hjvis
            · refine ⟨d, Or.inl (List.mem_append.2 (Or.inr ?_)), ?_⟩
              · rw [hji]
                exact List.mem_singleton.2 rfl
              · show d ≤ d + 1
                omega
            · have hmem : j ∈ ds.map Prod.fst := by
                apply List.mem_toFinset.1
                rw [← hvisEq]
                exact hjvis
              obtain ⟨py, hpy, hpy1⟩ := List.mem_map.1 hmem
              refine ⟨py.2, Or.inl (List.mem_append.2 (Or.inl ?_)), ?_⟩
              · rw [← hpy1]
                exact hpy
              · have h2 := hinv.yUB py hpy
                show py.2 ≤ d + 1
                omega
          · have hjfil : j ∈ fil := by
              rw [hfil]
              refine List.mem_filter.2 ⟨hj', ?_⟩
              simpa using hjv
            refine ⟨d + 1, Or.inr (List.mem_append.2 (Or.inr ?_)), ?_⟩
            · rw [hnw]
              exact List.mem_map.2 ⟨j, hjfil, rfl⟩
            · show d + 1 ≤ d + 1
              omega
      · -- the start is yielded at depth 0
        rcases hinv.startD with h | ⟨h1, h2, h3⟩
        · exact Or.inl (List.mem_append.2 (Or.inl h))
        · have h2' : ((i, d) :: q : List (Nat × Nat)) = [(s, 0)] := h2
          injection h2' with ha hb
          have his : i = s := congrArg Prod.fst ha
          have hds : d = 0 := congrArg Prod.snd ha
          refine Or.inl (List.mem_append.2 (Or.inr ?_))
          rw [his, hds]
          exact List.mem_singleton.2 rfl
      · -- queue indices in range
        intro p hp
        rcases List.mem_append.1 hp with h | h
        · exact hinv.qRangeD p (List.mem_cons.2 (Or.inr h))
        · obtain ⟨j, hj, hjp⟩ := List.mem_map.1 h
          rw [← hjp]
          exact hwf node hnode_mem j (hfil_nbrs j hj)

/-- If an instrumented BFS run finishes, the depth invariant carries to the
final (drained) state and the accumulated yield list. -/
lemma bfsRunD_inv (g : Graph) (s : Nat) (hwf : WF g) :
    ∀ (fuel : Nat) (st : BfsStateD) (ds : List (Nat × Nat)) (dl : Nat),
      BfsDInv g s ds st dl →
      (bfsRunD g fuel st).2.1 = .finished →
      ∃ dl', BfsDInv g s (ds ++ (bfsRunD g fuel st).1) (bfsRunD g fuel st).2.2 dl' ∧
        (bfsRunD g fuel st).2.2.queue = [] := by
  intro fuel
  induction fuel with
  | zero =>
    intro st ds dl _ hfin
    rw [bfsRunD] at hfin
    simp at hfin
  | succ fuel ih =>
    intro st ds dl hinv hfin
    have hinv0 : BfsDInv g s ds ⟨st.queue, st.visited⟩ dl := hinv
    rcases bfsNextAuxD_step g s hwf st.queue st.visited ds dl hinv0 with hdone | hyield
    · obtain ⟨h1, h2⟩ := hdone
      have hrun : bfsRunD g (fuel + 1) st = ([], .finished, ⟨[], st.visited⟩) := by
        rw [bfsRunD, h1]
      rw [hrun]
      exact ⟨dl, by simpa using h2, rfl⟩
    · obtain ⟨i, d, h1, hinv'⟩ := hyield
      cases hd : bfsNextAuxD g st.queue st.visited with
      | mk res st2 =>
        have h1' : res = .yield (i, d) := by
          rw [hd] at h1
          exact h1
        subst h1'
        have hst2 : st2 = (bfsNextAuxD g st.queue st.visited).2 := by rw [hd]
        have hrun : bfsRunD g (fuel + 1) st
            = ((i, d) :: (bfsRunD g fuel st2).1, (bfsRunD g fuel st2).2) := by
          rw [bfsRunD, hd]
        rw [hrun] at hfin ⊢
        have hfin' : (bfsRunD g fuel st2).2.1 = .finished := hfin
        rw [hst2] at hfin' ⊢
        obtain ⟨dl', hih, hq⟩ := ih (bfsNextAuxD g st.queue st.visited).2 (ds ++ [(i, d)]) d
          hinv' hfin'
        refine ⟨dl', ?_, hq⟩
        have happ : ds ++ (i, d) :: (bfsRunD g fuel (bfsNextAuxD g st.queue st.visited).2).1
            = (ds ++ [(i, d)]) ++ (bfsRunD g fuel (bfsNextAuxD g st.queue st.visited).2).1 := by
          simp
        rw [happ]
        exact hih

/-- At a drained final state, every node in layer `m` appears among the
depth-annotated yields with a depth of at most `m`. -/
lemma bfsDInv_reach_complete {g : Graph} {s : Nat} {ds : List (Nat × Nat)}
    {st : BfsStateD} {dl : Nat} (hinv : BfsDInv g s ds st dl) (hq : st.queue = []) :
    ∀ (m v : Nat), v ∈ reachSet g s m → ∃ d, d ≤ m ∧ (v, d) ∈ ds := by
  intro m
  induction m with
  | zero =>
    intro v hv
    have hvs : v = s := by
      rw [reachSet] at hv
      simpa using hv
    subst hvs
    rcases hinv.startD with h | ⟨h1, h2, h3⟩
    · exact ⟨0, Nat.le_refl 0, h⟩
    · exfalso
      rw [hq] at h2
      simp at h2
  | succ m ihm =>
    intro v hv
    rw [reachSet] at hv
    obtain ⟨u, hu, hvnb⟩ := Finset.mem_biUnion.1 hv
    obtain ⟨du, hdu, hmem⟩ := ihm u hu
    obtain ⟨d', hd1, hd2⟩ := hinv.closedD (u, du) hmem v (List.mem_toFinset.1 hvnb)
    rcases hd1 with h | h
    · refine ⟨d', ?_, h⟩
      have : d' ≤ du + 1 := hd2
      omega
    · rw [hq] at h
      simp at h

/-- C6: BFS yields nodes in non-decreasing breadth-first layer order.  The
depth-instrumented run projects exactly onto the plain BFS run; its recorded
depths are non-decreasing along the yield order, and each yielded node's
recorded depth is precisely its distance from the start (it lies in that
layer and in no earlier layer). -/
theorem bfs_layer_order (g : Graph) (s : Nat) (hwf : WF g) (hs : s < g.nodes.length) :
    (bfsRunD g (g.nodes.length + 1) ⟨[(s, 0)], ∅⟩).1.map Prod.fst
        = (bfsRun g (g.nodes.length + 1) (bfsNew g s)).1 ∧
    List.Pairwise (fun a b : Nat => a ≤ b)
      ((bfsRunD g (g.nodes.length + 1) ⟨[(s, 0)], ∅⟩).1.map Prod.snd) ∧
    ∀ p ∈ (bfsRunD g (g.nodes.length + 1) ⟨[(s, 0)], ∅⟩).1,
      p.1 ∈ reachSet g s p.2 ∧ ∀ m, p.1 ∈ reachSet g s m → p.2 ≤ m := by
  have hps : projSt ⟨[(s, 0)], ∅⟩ = bfsNew g s := rfl
  have hproj := bfsRunD_proj g (g.nodes.length + 1) ⟨[(s, 0)], ∅⟩
  rw [hps] at hproj
  have hcard : (Finset.range g.nodes.length \ (∅ : Finset Nat)).card < g.nodes.length + 1 := by
    rw [Finset.sdiff_empty, Finset.card_range]
    omega
  have hfinP : (bfsRun g (g.nodes.length + 1) (bfsNew g s)).2.1 = .finished :=
    (bfsRun_spec g s hwf (g.nodes.length + 1) (bfsNew g s) [] (bfsInv_init g s hs) hcard).1
  have hfinD : (bfsRunD g (g.nodes.length + 1) ⟨[(s, 0)], ∅⟩).2.1 = .finished := by
    rw [hproj.2]
    exact hfinP
  obtain ⟨dl', hinvf, hqf⟩ := bfsRunD_inv g s hwf (g.nodes.length + 1) ⟨[(s, 0)], ∅⟩ [] 0
    (bfsDInv_init g s hs) hfinD
  have hds : (([] : List (Nat × Nat))
      ++ (bfsRunD g (g.nodes.length + 1) ⟨[(s, 0)], ∅⟩).1)
      = (bfsRunD g (g.nodes.length + 1) ⟨[(s, 0)], ∅⟩).1 := by simp
  rw [hds] at hinvf
  refine ⟨hproj.1, hinvf.ySorted, ?_⟩
  intro p hp
  refine ⟨hinvf.yReach p hp, ?_⟩
  intro m hm
  obtain ⟨d2, hd2le, hd2mem⟩ := bfsDInv_reach_complete hinvf hqf m p.1 hm
  have heq : p.2 = d2 := fst_nodup_unique _ p.1 p.2 d2 hinvf.nodupYD hp hd2mem
  omega

/-- Closed witness for the BFS layer-order theorem at the demonstration
graph. -/
theorem bfs_layer_order_witness :
    WF demoGraph ∧ 0 < demoGraph.nodes.length ∧
    ((bfsRunD demoGraph (demoGraph.nodes.length + 1) ⟨[(0, 0)], ∅⟩).1.map Prod.fst
        = (bfsRun demoGraph (demoGraph.nodes.length + 1) (bfsNew demoGraph 0)).1 ∧
     List.Pairwise (fun a b : Nat => a ≤ b)
       ((bfsRunD demoGraph (demoGraph.nodes.length + 1) ⟨[(0, 0)], ∅⟩).1.map Prod.snd) ∧
     ∀ p ∈ (bfsRunD demoGraph (demoGraph.nodes.length + 1) ⟨[(0, 0)], ∅⟩).1,
       p.1 ∈ reachSet demoGraph 0 p.2 ∧ ∀ m, p.1 ∈ reachSet demoGraph 0 m → p.2 ≤ m) :=
  ⟨by decide, by decide, bfs_layer_order demoGraph 0 (by decide) (by decide)⟩
